import Mathlib

/-!
The info bar renderer of `internal/display/infowindow.go`

A shallow embedding of the single-line info/status bar renderer: the scroll
adjustment of the suggestion strip (`scrollToSuggestion`), the strip painter and
the message/prompt row painter (`Display`, `displayBuffer`).

Conventions of the embedding:

* Go `int` values are `Int`; the quantities involved are string lengths and
  terminal columns, far from the 64-bit range, so no wrap-around is modelled.
* A Go `string` / `[]byte` that the code only ever walks rune by rune is a
  `List Char` (the sequence of decoded runes).
* `runewidth.RuneWidth` belongs to an external library; it is a parameter
  `rw : Char → Nat` of every definition that uses it.
* The terminal screen is a write-only sink: every painter returns the sequence
  of `SetContent` and `ShowCursor` calls it issues.
-/

namespace Micro

/-! ## Collaborators -/

/-- A terminal style as used by the renderer: two colours and the reverse-video
attribute (`tcell.Style` restricted to what `infowindow.go` touches). -/
structure Style where
  fg : Int
  bg : Int
  reverse : Bool
deriving DecidableEq, Repr

/-- `Style.Reverse(b)`: sets the reverse-video attribute to `b`. -/
def Style.Reverse (s : Style) (b : Bool) : Style := { s with reverse := b }

/-- `Style.Foreground(c)`. -/
def Style.Foreground (s : Style) (c : Int) : Style := { s with fg := c }

/-- `Style.Background(c)`. -/
def Style.Background (s : Style) (c : Int) : Style := { s with bg := c }

/-- `tcell.ColorBlack`. -/
def ColorBlack : Int := 0

/-- `tcell.ColorMaroon`. -/
def ColorMaroon : Int := 1

/-- The ambient configuration read by the renderer: `config.DefStyle`,
`config.Colorscheme` and the two global settings. -/
structure Config where
  DefStyle : Style
  Colorscheme : String → Option Style
  infobar : Bool
  keymenu : Bool

/-- Modelled from the spec: `buffer.Loc` is not under `src/`; a logical position
is a pair of a column `X` and a line `Y`. -/
structure Loc where
  X : Int
  Y : Int
deriving DecidableEq, Repr

/-- Modelled from the spec: `Loc.LessThan` is not under `src/`; positions are
ordered by line, then by column. -/
def Loc.LessThan (l b : Loc) : Bool :=
  if l.Y < b.Y then true else decide (l.Y = b.Y ∧ l.X < b.X)

/-- Modelled from the spec: `Loc.GreaterEqual` is not under `src/`; positions are
ordered by line, then by column. -/
def Loc.GreaterEqual (l b : Loc) : Bool :=
  if l.Y > b.Y then true
  else if l.Y = b.Y ∧ l.X > b.X then true
  else decide (l = b)

/-- Modelled from the spec: the active cursor of the text-buffer collaborator is
not under `src/`; it exposes its logical column, a "has selection" flag and the
two selection endpoints. -/
structure Cursor where
  X : Int
  HasSelection : Bool
  CurSelection0 : Loc
  CurSelection1 : Loc
deriving DecidableEq, Repr

/-- A call on the screen surface: `screen.SetContent(x, y, r, nil, style)` or
`screen.ShowCursor(x, y)`. A painter is modelled by the sequence of calls it
issues, in order. -/
inductive Event where
  | SetContent (x y : Int) (r : Char) (style : Style)
  | ShowCursor (x y : Int)
deriving DecidableEq, Repr

/-- The content of the cell at `(x, y)` after a sequence of calls: the last
`SetContent` addressed to it, if any. -/
def cellAt : List Event → Int → Int → Option (Char × Style)
  | [], _, _ => none
  | e :: rest, x, y =>
    match cellAt rest x y with
    | some c => some c
    | none =>
      match e with
      | .SetContent x1 y1 r st => if x1 = x ∧ y1 = y then some (r, st) else none
      | .ShowCursor _ _ => none

/-- The `ShowCursor` calls of a sequence of calls, in order. -/
def cursorCalls : List Event → List (Int × Int)
  | [] => []
  | .ShowCursor x y :: rest => (x, y) :: cursorCalls rest
  | .SetContent _ _ _ _ :: rest => cursorCalls rest

/-- The `SetContent` calls of a sequence of calls, in order. -/
def cellWrites : List Event → List (Int × Int × Char × Style)
  | [] => []
  | .SetContent x y r st :: rest => (x, y, r, st) :: cellWrites rest
  | .ShowCursor _ _ :: rest => cellWrites rest

/-- Modelled from the spec: `util.Clamp` is not under `src/`; it clamps `val`
into `[lo, hi]`, testing the lower bound first. -/
def Clamp (val lo hi : Int) : Int :=
  if val < lo then lo else if val > hi then hi else val

/-- `runewidth.StringWidth`: the display width of a string, the sum of the
widths of its runes. -/
def StringWidth (rw : Char → Nat) (s : List Char) : Int :=
  ((s.map rw).sum : Nat)

/-- `utf8.RuneCountInString`. -/
def RuneCountInString (s : List Char) : Int := (s.length : Nat)

/-! ## The info window -/

/-- The state of `InfoWindow`: the embedded `InfoBuf` fields the renderer reads
(message, flags, suggestions, line 0 of the prompt buffer and its active
cursor), the geometry of the embedded `View` and the scroll offset. -/
structure InfoWindow where
  Msg : List Char
  HasPrompt : Bool
  HasMessage : Bool
  HasError : Bool
  HasSuggestions : Bool
  Suggestions : List (List Char)
  CurSuggestion : Int
  line : List Char
  cursor : Cursor
  Width : Int
  Y : Int
  hscroll : Int

namespace InfoWindow

/-- `errStyle`: the theme's "error-message" entry, else black on maroon. -/
def errStyle (cfg : Config) : Style :=
  match cfg.Colorscheme "error-message" with
  | some s => s
  | none => (cfg.DefStyle.Foreground ColorBlack).Background ColorMaroon

/-- `defStyle`: the theme's "message" entry, else the default style. -/
def defStyle (cfg : Config) : Style :=
  match cfg.Colorscheme "message" with
  | some s => s
  | none => cfg.DefStyle

/-- `totalSize`: the total content width of the suggestion strip. -/
def totalSize (rw : Char → Nat) (i : InfoWindow) : Int :=
  i.Suggestions.foldl (fun sum n => sum + (StringWidth rw n + 1)) 0

/-- The `for j, n := range i.Suggestions` loop of `scrollToSuggestion`, started
at index `j` with accumulated column `x`; returns the new `hscroll`. -/
def scrollLoop (cur width s : Int) : List (List Char) → Int → Int → Int → Int
  | [], _, _, hscroll => hscroll
  | n :: rest, j, x, hscroll =>
    let c := RuneCountInString n
    if j = cur then
      if x + c ≥ hscroll + width then Clamp (x + c + 1 - width) 0 (s - width)
      else if x < hscroll then Clamp (x - 1) 0 (s - width)
      else hscroll
    else scrollLoop cur width s rest (j + 1) (x + (c + 1)) hscroll

/-- `scrollToSuggestion`. -/
def scrollToSuggestion (rw : Char → Nat) (i : InfoWindow) : InfoWindow :=
  let s := totalSize rw i
  let h := scrollLoop i.CurSuggestion i.Width s i.Suggestions 0 0 i.hscroll
  { i with hscroll := if s - i.Width ≤ 0 then 0 else h }

/-- `Clear`: blanks every cell of the message row. -/
def Clear (cfg : Config) (i : InfoWindow) : List Event :=
  (List.range i.Width.toNat).map (fun (x : Nat) => Event.SetContent (x : Int) i.Y ' ' (defStyle cfg))

/-- The `keydisplay` table. -/
def keydisplay : List (List Char) :=
  ["^Q Quit, ^S Save, ^O Open, ^G Help, ^E Command Bar, ^K Cut Line".toList,
   "^F Find, ^Z Undo, ^Y Redo, ^A Select All, ^D Duplicate Line, ^T New Tab".toList]

/-- `displayKeyMenu`: the two static hint rows above the message row. -/
def displayKeyMenu (cfg : Config) (i : InfoWindow) : List Event :=
  (List.range keydisplay.length).flatMap (fun y =>
    (List.range i.Width.toNat).map (fun x =>
      if x < (keydisplay.getD y []).length then
        Event.SetContent x (i.Y - keydisplay.length + y) ((keydisplay.getD y []).getD x ' ')
          (defStyle cfg)
      else
        Event.SetContent x (i.Y - keydisplay.length + y) ' ' (defStyle cfg)))

/-- Modelled from the spec: `util.SliceVisualEnd` is not under `src/`; this is its
loop, which slices off the runes lying wholly before visual column `n`, with `width`
the visual width sliced off so far and `k` the number of runes sliced off. It
returns the rest of the line, the number of columns of `n` that fall inside the
first remaining rune, and the character position of that rune. -/
def SliceVisualEndLoop (rw : Char → Nat) (n tabsize : Int) :
    List Char → Int → Int → List Char × Int × Int
  | [], width, k => ([], n - width, k)
  | r :: rest, width, k =>
    let w : Int := if r = '\t' then tabsize - width.tmod tabsize else rw r
    if width + w > n then (r :: rest, n - width, k)
    else SliceVisualEndLoop rw n tabsize rest (width + w) (k + 1)

/-- Modelled from the spec: `util.SliceVisualEnd` is not under `src/`; the initial
horizontal skip of the Visual Column Mapper, up to visual column `n`. -/
def SliceVisualEnd (rw : Char → Nat) (b : List Char) (n tabsize : Int) :
    List Char × Int × Int :=
  SliceVisualEndLoop rw n tabsize b 0 0

/-- The variables of `displayBuffer` that its `draw` closure and its loop update:
the running visual column, the logical position, the columns still to skip and
the visual width consumed so far. -/
structure DrawState where
  vlocX : Int
  blocX : Int
  nColsBeforeStart : Int
  totalwidth : Int
deriving DecidableEq, Repr

/-- The selection test of `draw` in `displayBuffer` for the logical position
`blocX` on line 0. -/
def displayBuffer.selected (c : Cursor) (blocX : Int) : Bool :=
  c.HasSelection &&
    ((Loc.GreaterEqual ⟨blocX, 0⟩ c.CurSelection0 && Loc.LessThan ⟨blocX, 0⟩ c.CurSelection1) ||
      (Loc.LessThan ⟨blocX, 0⟩ c.CurSelection0 && Loc.GreaterEqual ⟨blocX, 0⟩ c.CurSelection1))

/-- The style `draw` in `displayBuffer` uses for a cell: the selection style (theme
"selection", else the reverse of `defStyle`) when the position is selected,
else the style passed in. -/
def displayBuffer.drawStyle (cfg : Config) (c : Cursor) (blocX : Int) (style : Style) : Style :=
  if displayBuffer.selected c blocX then
    match cfg.Colorscheme "selection" with
    | some s => s
    | none => (defStyle cfg).Reverse true
  else style

/-- The `draw` closure of `displayBuffer`. -/
def displayBuffer.draw (rw : Char → Nat) (cfg : Config) (i : InfoWindow) (st : DrawState)
    (r : Char) (style : Style) : DrawState × List Event :=
  if st.nColsBeforeStart ≤ 0 then
    ({ st with vlocX := st.vlocX + 1, nColsBeforeStart := st.nColsBeforeStart - 1 },
      (List.range (rw r)).map (fun j =>
        Event.SetContent st.vlocX i.Y (if j > 0 then ' ' else r)
          (displayBuffer.drawStyle cfg i.cursor st.blocX style)))
  else
    ({ st with nColsBeforeStart := st.nColsBeforeStart - 1 }, [])

/-- The filler loop of `displayBuffer`: `n` further calls of `draw` with the filler
glyph `char`. -/
def displayBuffer.fill (rw : Char → Nat) (cfg : Config) (i : InfoWindow) (char : Char) :
    Nat → DrawState → DrawState × List Event
  | 0, st => (st, [])
  | n + 1, st =>
    let d := displayBuffer.draw rw cfg i st char (defStyle cfg)
    let f := displayBuffer.fill rw cfg i char n d.1
    (f.1, d.2 ++ f.2)

/-- The `tabsize` of `displayBuffer`. -/
def displayBuffer.tabsize : Int := 4

/-- One iteration of the main loop of `displayBuffer` on the rune `r`, up to the
test for leaving the loop. -/
def displayBuffer.step (rw : Char → Nat) (cfg : Config) (i : InfoWindow) (st : DrawState)
    (r : Char) : DrawState × List Event :=
  let curVX := st.vlocX
  let curBX := st.blocX
  let d := displayBuffer.draw rw cfg i st r (defStyle cfg)
  let width : Int :=
    if r = '\t' then displayBuffer.tabsize - st.totalwidth.tmod displayBuffer.tabsize
    else rw r
  let char : Char := if r = '\t' then ' ' else '@'
  let st1 : DrawState := { d.1 with blocX := d.1.blocX + 1 }
  let f := if width > 1 then displayBuffer.fill rw cfg i char (width - 1).toNat st1 else (st1, [])
  let cur := if i.cursor.X = curBX then [Event.ShowCursor curVX i.Y] else []
  ({ f.1 with totalwidth := f.1.totalwidth + width }, d.2 ++ f.2 ++ cur)

/-- The main loop of `displayBuffer` over the runes of the line; it is left as
soon as the running visual column has reached the width of the view. -/
def displayBuffer.loop (rw : Char → Nat) (cfg : Config) (i : InfoWindow) :
    List Char → DrawState → DrawState × List Event
  | [], st => (st, [])
  | r :: rest, st =>
    let s := displayBuffer.step rw cfg i st r
    if s.1.vlocX ≥ i.Width then s
    else
      let l := displayBuffer.loop rw cfg i rest s.1
      (l.1, s.2 ++ l.2)

/-- The state in which the main loop of `displayBuffer` starts. -/
def displayBuffer.init (rw : Char → Nat) (i : InfoWindow) : DrawState :=
  let sl := SliceVisualEnd rw i.line 0 displayBuffer.tabsize
  { vlocX := RuneCountInString i.Msg, blocX := sl.2.2, nColsBeforeStart := sl.2.1,
    totalwidth := sl.2.2 - sl.2.1 }

/-- `displayBuffer`: paints line 0 of the prompt buffer after the label and shows
the cursor. -/
def displayBuffer (rw : Char → Nat) (cfg : Config) (i : InfoWindow) : List Event :=
  let sl := SliceVisualEnd rw i.line 0 displayBuffer.tabsize
  let l := displayBuffer.loop rw cfg i sl.1 (displayBuffer.init rw i)
  l.2 ++ (if i.cursor.X = l.1.blocX then [Event.ShowCursor l.1.vlocX i.Y] else [])

/-- The label loop of `Display`: paints the runes of `Msg` from column `x` on,
advancing by the display width of each rune. -/
def Display.label (rw : Char → Nat) (i : InfoWindow) (style : Style) :
    List Char → Int → List Event
  | [], _ => []
  | c :: rest, x =>
    Event.SetContent x i.Y c style :: Display.label rw i style rest (x + rw c)

/-- The cell loop of the `draw` closure of `Display` (`done` is never set in the
source, so it is `false` throughout): `js` are the remaining values of `j`, `x`
the running column; the loop is left after the `>` arrow. -/
def Display.drawCells (i : InfoWindow) (y : Int) (done : Bool) (r : Char) (s : Style) :
    List Nat → Int → Int × List Event
  | [], x => (x, [])
  | j :: js, x =>
    let c : Char := if j > 0 then ' ' else r
    if x = i.Width - 1 ∧ !done then
      (x + 1, [Event.SetContent (i.Width - 1) y '>' s])
    else if x = 0 ∧ i.hscroll > 0 then
      let d := Display.drawCells i y done r s js (x + 1)
      (d.1, Event.SetContent 0 y '<' s :: d.2)
    else if x ≥ 0 ∧ x < i.Width then
      let d := Display.drawCells i y done r s js (x + 1)
      (d.1, Event.SetContent x y c s :: d.2)
    else
      Display.drawCells i y done r s js (x + 1)

/-- The `draw` closure of `Display`, on the suggestion row `y`. -/
def Display.draw (rw : Char → Nat) (i : InfoWindow) (y : Int) (x : Int) (r : Char)
    (s : Style) : Int × List Event :=
  Display.drawCells i y false r s (List.range (rw r)) x

/-- The runes of one candidate, drawn in `style`. -/
def Display.drawRunes (rw : Char → Nat) (i : InfoWindow) (y : Int) (style : Style) :
    List Char → Int → Int × List Event
  | [], x => (x, [])
  | r :: rest, x =>
    let d := Display.draw rw i y x r style
    let t := Display.drawRunes rw i y style rest d.1
    (t.1, d.2 ++ t.2)

/-- The loop of `Display` over the candidates, from index `j` on: each candidate in
the status-line style, reversed for the current one, followed by a blank. -/
def Display.drawSuggestions (rw : Char → Nat) (i : InfoWindow) (y : Int)
    (statusLineStyle : Style) : List (List Char) → Int → Int → Int × List Event
  | [], _, x => (x, [])
  | s :: rest, j, x =>
    let style := if i.CurSuggestion = j then statusLineStyle.Reverse true else statusLineStyle
    let d := Display.drawRunes rw i y style s x
    let b := Display.draw rw i y d.1 ' ' statusLineStyle
    let t := Display.drawSuggestions rw i y statusLineStyle rest (j + 1) b.1
    (t.1, d.2 ++ b.2 ++ t.2)

/-- The padding loop `for x < i.Width` of `Display`, run for at most `fuel`
iterations; `none` when the loop has not ended by then. -/
def Display.pad (rw : Char → Nat) (i : InfoWindow) (y : Int) (statusLineStyle : Style) :
    Nat → Int → Option (List Event)
  | 0, x => if x < i.Width then none else some []
  | fuel + 1, x =>
    if x < i.Width then
      let d := Display.draw rw i y x ' ' statusLineStyle
      match Display.pad rw i y statusLineStyle fuel d.1 with
      | some t => some (d.2 ++ t)
      | none => none
    else some []

/-- The status-line style of `Display`: the theme's "statusline" entry, else the
reverse of the default style. -/
def Display.statusLineStyle (cfg : Config) : Style :=
  match cfg.Colorscheme "statusline" with
  | some s => s
  | none => cfg.DefStyle.Reverse true

/-- The row of the suggestion strip. -/
def Display.suggestionRow (cfg : Config) (i : InfoWindow) : Int :=
  i.Y - (if cfg.keymenu then (keydisplay.length : Int) else 0) - 1

/-- The suggestion part of `Display` (the second `if`): the scroll adjustment and
the strip painter. The padding loop advances `x` by at least one column per
iteration when a blank has a width, so `Width - x` iterations are given to it;
the result is `none` when it does not end. -/
def Display.suggestions (rw : Char → Nat) (cfg : Config) (i : InfoWindow) :
    Option (InfoWindow × List Event) :=
  if i.HasSuggestions && decide (i.Suggestions.length > 1) then
    let i1 := scrollToSuggestion rw i
    let y := Display.suggestionRow cfg i1
    let d := Display.drawSuggestions rw i1 y (Display.statusLineStyle cfg) i1.Suggestions 0
      (-i1.hscroll)
    match Display.pad rw i1 y (Display.statusLineStyle cfg) (i1.Width - d.1).toNat d.1 with
    | some t => some (i1, d.2 ++ t)
    | none => none
  else some (i, [])

/-- The message part of `Display` (the first `if`): the calls issued and whether
the function returned from inside it. -/
def Display.message (rw : Char → Nat) (cfg : Config) (i : InfoWindow) : List Event × Bool :=
  if i.HasPrompt || cfg.infobar then
    let e := Clear cfg i ++ (if cfg.keymenu then displayKeyMenu cfg i else [])
    if !i.HasPrompt && !i.HasMessage && !i.HasError then (e, true)
    else
      (e ++ Clear cfg i ++
        Display.label rw i (if i.HasError then errStyle cfg else defStyle cfg) i.Msg 0 ++
        (if i.HasPrompt then displayBuffer rw cfg i else []), false)
  else ([], false)

/-- `Display`: one frame of the info bar. Returns the window (with its scroll
offset updated) and the calls issued on the screen; `none` when the padding loop
of the suggestion strip does not end. -/
def Display (rw : Char → Nat) (cfg : Config) (i : InfoWindow) :
    Option (InfoWindow × List Event) :=
  let m := Display.message rw cfg i
  if m.2 then some (i, m.1)
  else
    match Display.suggestions rw cfg i with
    | some r => some (r.1, m.1 ++ r.2)
    | none => none

end InfoWindow

open InfoWindow

/-! ## Reference notions used to state the properties -/

/-- A sample width function agreeing with `runewidth.RuneWidth` on the runes
used in the concrete scenarios below: control characters have width 0, the CJK
unified ideographs width 2, everything else width 1. -/
def sampleWidth (c : Char) : Nat :=
  if c.toNat < 32 then 0
  else if 0x4E00 ≤ c.toNat ∧ c.toNat ≤ 0x9FFF then 2
  else 1

/-- The left edge of candidate `k` in content coordinates: the sum over the
preceding candidates of display width + 1. -/
def spanStart (rw : Char → Nat) (sugg : List (List Char)) (k : Nat) : Int :=
  ((sugg.take k).map (fun n => StringWidth rw n + 1)).sum

/-- The display width of candidate `k`. -/
def spanWidth (rw : Char → Nat) (sugg : List (List Char)) (k : Nat) : Int :=
  StringWidth rw (sugg.getD k [])

/-- An info window showing only a suggestion list. -/
def suggWindow (sugg : List (List Char)) (cur width hscroll : Int) : InfoWindow :=
  { Msg := [], HasPrompt := false, HasMessage := false, HasError := false,
    HasSuggestions := true, Suggestions := sugg, CurSuggestion := cur,
    line := [], cursor := ⟨0, false, ⟨0, 0⟩, ⟨0, 0⟩⟩, Width := width, Y := 10,
    hscroll := hscroll }

/-- The span of candidate `k` lies within the viewport `[hscroll, hscroll+Width)`
of the window. -/
@[reducible] def spanVisible (rw : Char → Nat) (i : InfoWindow) (k : Nat) : Prop :=
  i.hscroll ≤ spanStart rw i.Suggestions k ∧
    spanStart rw i.Suggestions k + spanWidth rw i.Suggestions k ≤ i.hscroll + i.Width

/-- A configuration without theme entries, with both settings off. -/
def plainConfig : Config :=
  { DefStyle := ⟨7, 0, false⟩, Colorscheme := fun _ => none, infobar := false, keymenu := false }

/-- An info window with an active prompt: label `msg`, buffer line `line`, cursor at
logical column `cx` without a selection. -/
def promptWindow (msg line : List Char) (cx width : Int) : InfoWindow :=
  { Msg := msg, HasPrompt := true, HasMessage := false, HasError := false,
    HasSuggestions := false, Suggestions := [], CurSuggestion := 0,
    line := line, cursor := ⟨cx, false, ⟨0, 0⟩, ⟨0, 0⟩⟩, Width := width, Y := 10,
    hscroll := 0 }

/-- The cells `draw` writes for the rune `r` at column `v` when the logical
position is `p`: `rw r` writes, all at column `v`. -/
def drawnCells (rw : Char → Nat) (cfg : Config) (i : InfoWindow) (v p : Int) (r : Char)
    (style : Style) : List Event :=
  (List.range (rw r)).map (fun j =>
    Event.SetContent v i.Y (if j > 0 then ' ' else r)
      (displayBuffer.drawStyle cfg i.cursor p style))

/-- The cells the filler loop writes: `n` calls of `draw` from column `v` on, all at
logical position `p`. -/
def fillerCells (rw : Char → Nat) (cfg : Config) (i : InfoWindow) (v p : Int) (char : Char) :
    Nat → List Event
  | 0 => []
  | n + 1 => drawnCells rw cfg i v p char (defStyle cfg) ++ fillerCells rw cfg i (v + 1) p char n

/-- The width the main loop gives the rune `r` when the visual width consumed so far
is `tw`: a tab reaches the next multiple of the tab size. -/
def runeCells (rw : Char → Nat) (tw : Int) (r : Char) : Int :=
  if r = '\t' then 4 - tw % 4 else rw r

/-- The visual width consumed after the runes of `line`, starting from `tw`. -/
def lineWidth (rw : Char → Nat) : List Char → Int → Int
  | [], tw => tw
  | r :: rest, tw => lineWidth rw rest (tw + runeCells rw tw r)

/-- The number of filler calls for a rune of width `width`. -/
def fillCount (width : Int) : Nat := if width > 1 then (width - 1).toNat else 0

/-- Every `SetContent` call of `es` addresses a column in `[a, b)`. -/
def colsWithin (es : List Event) (a b : Int) : Prop :=
  ∀ x y r s, Event.SetContent x y r s ∈ es → a ≤ x ∧ x < b

/-- The selection style: the theme's "selection" entry, else the reverse of
`defStyle`. -/
def selectionStyle (cfg : Config) : Style :=
  match cfg.Colorscheme "selection" with
  | some s => s
  | none => (defStyle cfg).Reverse true

/-- The window with the two selection endpoints of its cursor exchanged. -/
def swapSelection (i : InfoWindow) : InfoWindow :=
  { i with cursor := { i.cursor with CurSelection0 := i.cursor.CurSelection1,
                                     CurSelection1 := i.cursor.CurSelection0 } }

/-- The strip painter of `Display` alone, for the window as it is: the candidates,
then the padding. -/
def InfoWindow.Display.strip (rw : Char → Nat) (cfg : Config) (i : InfoWindow) :
    Option (List Event) :=
  match Display.pad rw i (Display.suggestionRow cfg i) (Display.statusLineStyle cfg)
      (i.Width - (Display.drawSuggestions rw i (Display.suggestionRow cfg i)
        (Display.statusLineStyle cfg) i.Suggestions 0 (-i.hscroll)).1).toNat
      (Display.drawSuggestions rw i (Display.suggestionRow cfg i)
        (Display.statusLineStyle cfg) i.Suggestions 0 (-i.hscroll)).1 with
  | some t => some ((Display.drawSuggestions rw i (Display.suggestionRow cfg i)
      (Display.statusLineStyle cfg) i.Suggestions 0 (-i.hscroll)).2 ++ t)
  | none => none

/-- A call of the strip painter made while the running column goes from `lo` to `hi`:
a cell of row `y` at a column of `[lo, hi)` inside the view, in a style allowed by
`Q`, holding `>` at the last column of the view, `<` at column 0 of a scrolled
strip, and else a rune allowed by `P`. -/
def stripCell (i : InfoWindow) (y : Int) (P : Char → Prop) (Q : Style → Prop) (lo hi : Int)
    (e : Event) : Prop :=
  ∃ col c s, e = Event.SetContent col y c s ∧ lo ≤ col ∧ col < hi ∧ 0 ≤ col ∧ col < i.Width ∧
    Q s ∧
    (if col = i.Width - 1 then c = '>' else if col = 0 ∧ i.hscroll > 0 then c = '<' else P c)

/-- What a stretch of the strip painter does while the running column goes from `x`
to `x1`: every call is a `stripCell`, and every column of `[x, x1)` inside the
view is written. -/
def StripSpec (i : InfoWindow) (y : Int) (P : Char → Prop) (Q : Style → Prop) (x x1 : Int)
    (es : List Event) : Prop :=
  x ≤ x1 ∧ (∀ e ∈ es, stripCell i y P Q x x1 e) ∧
    (∀ col, x ≤ col → col < x1 → 0 ≤ col → col < i.Width →
      ∃ c s, Event.SetContent col y c s ∈ es)

/-- The plain configuration with the "infobar" setting on. -/
def infobarConfig : Config := { plainConfig with infobar := true }

/-- An info window showing only a message. -/
def messageWindow (msg : List Char) (width : Int) : InfoWindow :=
  { Msg := msg, HasPrompt := false, HasMessage := true, HasError := false,
    HasSuggestions := false, Suggestions := [], CurSuggestion := 0,
    line := [], cursor := ⟨0, false, ⟨0, 0⟩, ⟨0, 0⟩⟩, Width := width, Y := 10,
    hscroll := 0 }

/-- A prompt window whose cursor has the selection from `s0` to `s1` on line 0. -/
def selectionWindow (msg line : List Char) (s0 s1 width : Int) : InfoWindow :=
  { promptWindow msg line 0 width with cursor := ⟨0, true, ⟨s0, 0⟩, ⟨s1, 0⟩⟩ }

/-- A configuration whose theme has a "message" entry only, with "infobar" on. -/
def messageThemeConfig : Config :=
  { plainConfig with
    Colorscheme := fun n => if n = "message" then some ⟨2, 3, false⟩ else none,
    infobar := true }

/-- A configuration whose theme has a "statusline" entry without reverse-video. -/
def statuslineThemeConfig : Config :=
  { plainConfig with
    Colorscheme := fun n => if n = "statusline" then some ⟨7, 4, false⟩ else none }

/-- An info window showing an error message. -/
def errorWindow (msg : List Char) (width : Int) : InfoWindow :=
  { messageWindow msg width with HasError := true }

/-- The cells of one rune in the strip, as `draw` asks for them: the rune, then
blanks, `rw r` cells in all, in the style `st`. -/
def runeLayout (rw : Char → Nat) (st : Style) (r : Char) : List (Char × Style) :=
  (List.range (rw r)).map (fun j => (if j > 0 then ' ' else r, st))

/-- The content of the strip from candidate `j` on, cell by cell, before scrolling
and without arrows: the runes of each candidate in the status-line style, reversed
for the current one, each candidate followed by a blank in the status-line style. -/
def stripLayout (rw : Char → Nat) (cur : Int) (base : Style) :
    List (List Char) → Int → List (Char × Style)
  | [], _ => []
  | n :: rest, j =>
    n.flatMap (runeLayout rw (if cur = j then base.Reverse true else base)) ++
      runeLayout rw base ' ' ++ stripLayout rw cur base rest (j + 1)

/-- The content cell at content position `k`: a cell of the layout, or a padding
blank in the status-line style beyond it. -/
def contentCell (layout : List (Char × Style)) (base : Style) (k : Int) : Char × Style :=
  if 0 ≤ k then layout.getD k.toNat (' ', base) else (' ', base)

/-- The cell function `g` gives, at the columns from `x` on that lie before the end
of the view, the cells of the list. -/
def agrees (g : Int → Char × Style) (width : Int) : Int → List (Char × Style) → Prop
  | _, [] => True
  | x, c :: rest => (x < width → g x = c) ∧ agrees g width (x + 1) rest

/-- Every call of `es` writes, on row `y` at a column `col` of the view, the style of
the cell `g col` and its rune, or an arrow in place of the rune. -/
def laidOut (i : InfoWindow) (y : Int) (g : Int → Char × Style) (es : List Event) : Prop :=
  ∀ e ∈ es, ∃ col c s, e = Event.SetContent col y c s ∧ col < i.Width ∧ s = (g col).2 ∧
    c = (if col = i.Width - 1 then '>' else if col = 0 ∧ i.hscroll > 0 then '<'
      else (g col).1)

/-! ## Scroll adjustment -/


theorem foldl_add_sum (f : List Char → Int) (l : List (List Char)) (a : Int) :
    l.foldl (fun sum n => sum + f n) a = a + (l.map f).sum := by
  induction l generalizing a with
  | nil => simp
  | cons n rest ih => simp [List.foldl_cons, ih, add_assoc]

theorem totalSize_eq_sum (rw : Char → Nat) (i : InfoWindow) :
    totalSize rw i = (i.Suggestions.map (fun n => StringWidth rw n + 1)).sum := by
  unfold totalSize
  rw [foldl_add_sum (fun n => StringWidth rw n + 1)]
  simp

theorem StringWidth_nonneg (rw : Char → Nat) (s : List Char) : 0 ≤ StringWidth rw s := by
  unfold StringWidth; exact Int.natCast_nonneg _

theorem sum_take_le (f : List Char → Int) (hf : ∀ n, 0 ≤ f n) (l : List (List Char)) (k : Nat) :
    ((l.take k).map f).sum ≤ (l.map f).sum := by
  induction l generalizing k with
  | nil => simp
  | cons n rest ih =>
    cases k with
    | zero =>
      simp only [List.take_zero, List.map_nil, List.sum_nil]
      exact List.sum_nonneg (by intro x hx; simp only [List.mem_map] at hx; obtain ⟨a, _, rfl⟩ := hx; exact hf a)
    | succ k =>
      simp only [List.take_succ_cons, List.map_cons, List.sum_cons]
      have := ih k
      omega

/-- The loop either leaves the offset alone or returns a clamped value. -/
theorem scrollLoop_cases (cur width s : Int) (l : List (List Char)) (j x h : Int) :
    scrollLoop cur width s l j x h = h ∨
      ∃ v, scrollLoop cur width s l j x h = Clamp v 0 (s - width) := by
  induction l generalizing j x with
  | nil => left; rfl
  | cons n rest ih =>
    unfold scrollLoop
    simp only
    split_ifs
    · right; exact ⟨_, rfl⟩
    · right; exact ⟨_, rfl⟩
    · left; rfl
    · exact ih _ _

/-- The loop at the selected candidate: the walk reaches it with `x` advanced by
the rune counts (+1) of the candidates before it. -/
theorem scrollLoop_at (cur width s : Int) (pre : List (List Char)) (n : List Char)
    (post : List (List Char)) (j x h : Int) (hcur : cur = j + pre.length) :
    scrollLoop cur width s (pre ++ n :: post) j x h =
      (let x' := x + (pre.map (fun m => RuneCountInString m + 1)).sum
       let c := RuneCountInString n
       if x' + c ≥ h + width then Clamp (x' + c + 1 - width) 0 (s - width)
       else if x' < h then Clamp (x' - 1) 0 (s - width)
       else h) := by
  induction pre generalizing j x with
  | nil =>
    simp only [List.nil_append, List.length_nil, Nat.cast_zero, add_zero] at hcur ⊢
    unfold scrollLoop
    simp [hcur]
  | cons m rest ih =>
    have hne : ¬ j = cur := by
      simp only [List.length_cons, Nat.cast_add, Nat.cast_one] at hcur
      omega
    simp only [List.cons_append]
    unfold scrollLoop
    simp only [hne, if_false]
    rw [ih (j + 1) (x + (RuneCountInString m + 1))
      (by simp only [List.length_cons, Nat.cast_add, Nat.cast_one] at hcur; omega)]
    simp only [List.map_cons, List.sum_cons, add_assoc]

theorem Clamp_bounds (v hi : Int) (h : 0 ≤ hi) : 0 ≤ Clamp v 0 hi ∧ Clamp v 0 hi ≤ hi := by
  unfold Clamp; split_ifs <;> omega

theorem split_at (l : List (List Char)) (k : Nat) (hk : k < l.length) :
    l = l.take k ++ l.getD k [] :: l.drop (k + 1) := by
  induction l generalizing k with
  | nil => simp at hk
  | cons a rest ih =>
    cases k with
    | zero => simp
    | succ k =>
      simp only [List.length_cons, Nat.add_lt_add_iff_right] at hk
      have := ih k hk
      simp only [List.take_succ_cons, List.getD_cons_succ, List.drop_succ_cons, List.cons_append]
      rw [← this]

theorem sum_map_congr (f g : List Char → Int) (l : List (List Char))
    (h : ∀ n ∈ l, f n = g n) : (l.map f).sum = (l.map g).sum := by
  induction l with
  | nil => rfl
  | cons a rest ih =>
    simp only [List.map_cons, List.sum_cons]
    rw [h a (List.mem_cons_self _ _), ih (fun n hn => h n (List.mem_cons_of_mem _ hn))]

/-- C1 (amended): when the candidates up to the selected one have display width
equal to their rune count and the selected candidate is narrower than the
viewport, the selected candidate's span lies within the viewport after the
scroll adjustment. -/
theorem scrollToSuggestion_span_visible (rw : Char → Nat) (i : InfoWindow) (k : Nat)
    (hk : k < i.Suggestions.length) (hcur : i.CurSuggestion = k)
    (hw : ∀ n ∈ i.Suggestions.take (k + 1), StringWidth rw n = RuneCountInString n)
    (hfit : spanWidth rw i.Suggestions k < i.Width) :
    spanVisible rw (scrollToSuggestion rw i) k := by
  have hsplit := split_at i.Suggestions k hk
  have hlen : (i.Suggestions.take k).length = k := by
    rw [List.length_take]; omega
  -- the selected candidate and the ones before it are measured in runes
  have hsel : StringWidth rw (i.Suggestions.getD k []) =
      RuneCountInString (i.Suggestions.getD k []) := by
    apply hw
    rw [List.take_succ]
    simp only [List.mem_append]
    right
    rw [List.getD_eq_getElem?_getD, List.getElem?_eq_getElem hk]
    simp
  have hpre : ((i.Suggestions.take k).map (fun n => StringWidth rw n + 1)).sum =
      ((i.Suggestions.take k).map (fun m => RuneCountInString m + 1)).sum := by
    apply sum_map_congr
    intro n hn
    rw [hw n]
    rw [List.take_succ]
    exact List.mem_append_left _ hn
  -- the content up to the right edge of the selected candidate is part of the total
  have htot : spanStart rw i.Suggestions k + spanWidth rw i.Suggestions k + 1 ≤ totalSize rw i := by
    rw [totalSize_eq_sum]
    have h1 := sum_take_le (fun n => StringWidth rw n + 1)
      (fun n => by show 0 ≤ StringWidth rw n + 1; have := StringWidth_nonneg rw n; omega) i.Suggestions (k + 1)
    have h2 : ((i.Suggestions.take (k + 1)).map (fun n => StringWidth rw n + 1)).sum =
        spanStart rw i.Suggestions k + spanWidth rw i.Suggestions k + 1 := by
      unfold spanStart spanWidth
      rw [List.take_succ, List.map_append, List.sum_append]
      rw [List.getD_eq_getElem?_getD, List.getElem?_eq_getElem hk]
      simp
      ring
    omega
  have hloop := scrollLoop_at i.CurSuggestion i.Width (totalSize rw i) (i.Suggestions.take k)
    (i.Suggestions.getD k []) (i.Suggestions.drop (k + 1)) 0 0 i.hscroll
    (by rw [hlen, hcur]; simp)
  rw [← hsplit] at hloop
  have hnn := StringWidth_nonneg rw (i.Suggestions.getD k [])
  unfold spanVisible scrollToSuggestion
  simp only [hloop]
  unfold spanStart spanWidth at *
  rw [hpre] at htot ⊢
  rw [hsel] at htot hfit hnn ⊢
  simp only [zero_add]
  have hx : 0 ≤ ((i.Suggestions.take k).map (fun m => RuneCountInString m + 1)).sum := by
    apply List.sum_nonneg
    intro y hy
    simp only [List.mem_map] at hy
    obtain ⟨a, _, rfl⟩ := hy
    unfold RuneCountInString
    omega
  generalize ((i.Suggestions.take k).map (fun m => RuneCountInString m + 1)).sum = x at *
  generalize RuneCountInString (i.Suggestions.getD k []) = c at *
  generalize totalSize rw i = s at *
  unfold Clamp
  split_ifs <;> constructor <;> omega

/-- Witness for C1 (amended): the list `abc de fghij`, candidate 2, width 10. -/
theorem scrollToSuggestion_span_visible_witness :
    spanVisible sampleWidth (scrollToSuggestion sampleWidth
      (suggWindow ["abc".toList, "de".toList, "fghij".toList] 2 10 0)) 2 :=
  scrollToSuggestion_span_visible sampleWidth
    (suggWindow ["abc".toList, "de".toList, "fghij".toList] 2 10 0) 2
    (by decide) (by decide) (by decide) (by decide)

/-- C1 (as stated) fails: a candidate exactly as wide as the viewport is pushed one
column off the left edge (list `abc d`, candidate 0, width 3), and a candidate
preceded by double-width runes is not brought into view at all. -/
theorem scrollToSuggestion_span_counterexample :
    (0 ≤ (suggWindow ["abc".toList, "d".toList] 0 3 0).hscroll ∧
      spanWidth sampleWidth ["abc".toList, "d".toList] 0 ≤ 3 ∧
      ¬ spanVisible sampleWidth (scrollToSuggestion sampleWidth
        (suggWindow ["abc".toList, "d".toList] 0 3 0)) 0) ∧
    (0 ≤ (suggWindow ["世界世界".toList, "ab".toList] 1 10 0).hscroll ∧
      spanWidth sampleWidth ["世界世界".toList, "ab".toList] 1 ≤ 10 ∧
      ¬ spanVisible sampleWidth (scrollToSuggestion sampleWidth
        (suggWindow ["世界世界".toList, "ab".toList] 1 10 0)) 1) := by
  decide

/-- C2 (amended): from a non-negative offset, the scroll adjustment yields a
non-negative offset that lies within `[0, max(0, totalSize - Width)]` or is the
prior offset left untouched; an offset already within that range stays there. -/
theorem scrollToSuggestion_offset_range (rw : Char → Nat) (i : InfoWindow)
    (h0 : 0 ≤ i.hscroll) :
    0 ≤ (scrollToSuggestion rw i).hscroll ∧
    ((scrollToSuggestion rw i).hscroll ≤ max 0 (totalSize rw i - i.Width) ∨
      (scrollToSuggestion rw i).hscroll = i.hscroll) ∧
    (i.hscroll ≤ max 0 (totalSize rw i - i.Width) →
      (scrollToSuggestion rw i).hscroll ≤ max 0 (totalSize rw i - i.Width)) := by
  unfold scrollToSuggestion
  simp only
  by_cases hs : totalSize rw i - i.Width ≤ 0
  · simp only [hs, if_true]
    refine ⟨le_refl _, Or.inl (le_max_left _ _), fun _ => le_max_left _ _⟩
  · simp only [hs, if_false]
    have hpos : 0 ≤ totalSize rw i - i.Width := by omega
    rcases scrollLoop_cases i.CurSuggestion i.Width (totalSize rw i) i.Suggestions 0 0 i.hscroll
      with h | ⟨v, h⟩
    · rw [h]
      exact ⟨h0, Or.inr rfl, fun hr => hr⟩
    · rw [h]
      have hb := Clamp_bounds v _ hpos
      have hm : totalSize rw i - i.Width ≤ max 0 (totalSize rw i - i.Width) := le_max_right _ _
      exact ⟨hb.1, Or.inl (le_trans hb.2 hm), fun _ => le_trans hb.2 hm⟩

/-- Witness for C2 (amended): the list `abc de fghij`, candidate 2, width 10. -/
theorem scrollToSuggestion_offset_range_witness :
    0 ≤ (scrollToSuggestion sampleWidth
      (suggWindow ["abc".toList, "de".toList, "fghij".toList] 2 10 0)).hscroll ∧
    ((scrollToSuggestion sampleWidth
        (suggWindow ["abc".toList, "de".toList, "fghij".toList] 2 10 0)).hscroll ≤
        max 0 (totalSize sampleWidth
          (suggWindow ["abc".toList, "de".toList, "fghij".toList] 2 10 0) - 10) ∨
      (scrollToSuggestion sampleWidth
        (suggWindow ["abc".toList, "de".toList, "fghij".toList] 2 10 0)).hscroll = 0) ∧
    ((0 : Int) ≤ max 0 (totalSize sampleWidth
          (suggWindow ["abc".toList, "de".toList, "fghij".toList] 2 10 0) - 10) →
      (scrollToSuggestion sampleWidth
        (suggWindow ["abc".toList, "de".toList, "fghij".toList] 2 10 0)).hscroll ≤
        max 0 (totalSize sampleWidth
          (suggWindow ["abc".toList, "de".toList, "fghij".toList] 2 10 0) - 10)) :=
  scrollToSuggestion_offset_range sampleWidth
    (suggWindow ["abc".toList, "de".toList, "fghij".toList] 2 10 0) (by decide)

/-- C2 (as stated) fails: an offset of 10 left over from an earlier list is kept
for the list `aaaaaaaaaa b` (total size 13), candidate 1, width 5, although the
largest offset in range is 8. -/
theorem scrollToSuggestion_offset_range_counterexample :
    0 ≤ (suggWindow ["aaaaaaaaaa".toList, "b".toList] 1 5 10).hscroll ∧
    ¬ (0 ≤ (scrollToSuggestion sampleWidth
          (suggWindow ["aaaaaaaaaa".toList, "b".toList] 1 5 10)).hscroll ∧
        (scrollToSuggestion sampleWidth
          (suggWindow ["aaaaaaaaaa".toList, "b".toList] 1 5 10)).hscroll ≤
          max 0 (totalSize sampleWidth
            (suggWindow ["aaaaaaaaaa".toList, "b".toList] 1 5 10) - 5)) := by
  decide

/-! ## The suggestion strip -/

theorem cellAt_cons (e : Event) (rest : List Event) (x y : Int) :
    cellAt (e :: rest) x y =
      match cellAt rest x y with
      | some c => some c
      | none =>
        match e with
        | .SetContent x1 y1 r st => if x1 = x ∧ y1 = y then some (r, st) else none
        | .ShowCursor _ _ => none := rfl

theorem cellAt_append (a b : List Event) (x y : Int) :
    cellAt (a ++ b) x y =
      match cellAt b x y with
      | some c => some c
      | none => cellAt a x y := by
  induction a with
  | nil =>
    rw [List.nil_append]
    cases cellAt b x y <;> rfl
  | cons e rest ih =>
    rw [List.cons_append, cellAt_cons, ih, cellAt_cons]
    cases cellAt b x y <;> rfl

theorem suggestions_example (rw : Char → Nat) (cfg : Config) (i : InfoWindow)
    (hrw : ∀ c ∈ "abcdefghij ".toList, rw c = 1)
    (hW : i.Width = 10)
    (hS : i.Suggestions = ["abc".toList, "de".toList, "fghij".toList])
    (hc : i.CurSuggestion = 2) (hh : i.hscroll = 0) (hs : i.HasSuggestions = true) :
    Display.suggestions rw cfg i = some ({ i with hscroll := 3 },
      [Event.SetContent 0 (Display.suggestionRow cfg i) '<' (Display.statusLineStyle cfg),
       Event.SetContent 1 (Display.suggestionRow cfg i) 'd' (Display.statusLineStyle cfg),
       Event.SetContent 2 (Display.suggestionRow cfg i) 'e' (Display.statusLineStyle cfg),
       Event.SetContent 3 (Display.suggestionRow cfg i) ' ' (Display.statusLineStyle cfg),
       Event.SetContent 4 (Display.suggestionRow cfg i) 'f' ((Display.statusLineStyle cfg).Reverse true),
       Event.SetContent 5 (Display.suggestionRow cfg i) 'g' ((Display.statusLineStyle cfg).Reverse true),
       Event.SetContent 6 (Display.suggestionRow cfg i) 'h' ((Display.statusLineStyle cfg).Reverse true),
       Event.SetContent 7 (Display.suggestionRow cfg i) 'i' ((Display.statusLineStyle cfg).Reverse true),
       Event.SetContent 8 (Display.suggestionRow cfg i) 'j' ((Display.statusLineStyle cfg).Reverse true),
       Event.SetContent 9 (Display.suggestionRow cfg i) '>' (Display.statusLineStyle cfg)]) := by
  obtain ⟨Msg, HasPrompt, HasMessage, HasError, HasSuggestions, Suggestions, CurSuggestion,
    line, cursor, Width, Y, hscroll⟩ := i
  simp only at hW hS hc hh hs
  subst hW hS hc hh hs
  have ha := hrw 'a' (by decide)
  have hb := hrw 'b' (by decide)
  have hc := hrw 'c' (by decide)
  have hd := hrw 'd' (by decide)
  have he := hrw 'e' (by decide)
  have hf := hrw 'f' (by decide)
  have hg := hrw 'g' (by decide)
  have hh := hrw 'h' (by decide)
  have hi := hrw 'i' (by decide)
  have hj := hrw 'j' (by decide)
  have hsp := hrw ' ' (by decide)
  have hscroll : scrollToSuggestion rw
      { Msg := Msg, HasPrompt := HasPrompt, HasMessage := HasMessage, HasError := HasError,
        HasSuggestions := true, Suggestions := ["abc".toList, "de".toList, "fghij".toList],
        CurSuggestion := 2, line := line, cursor := cursor, Width := 10, Y := Y, hscroll := 0 } =
      { Msg := Msg, HasPrompt := HasPrompt, HasMessage := HasMessage, HasError := HasError,
        HasSuggestions := true, Suggestions := ["abc".toList, "de".toList, "fghij".toList],
        CurSuggestion := 2, line := line, cursor := cursor, Width := 10, Y := Y, hscroll := 3 } := by
    simp [scrollToSuggestion, totalSize, StringWidth, scrollLoop, RuneCountInString, Clamp,
      ha, hb, hc, hd, he, hf, hg, hh, hi, hj]
  unfold Display.suggestions
  simp only [hscroll]
  simp [Display.drawSuggestions, Display.drawRunes, Display.draw, Display.drawCells, Display.pad,
    Display.suggestionRow, ha, hb, hc, hd, he, hf, hg, hh, hi, hj, hsp, List.range_succ]

/-- `Display` returns from inside its first `if` exactly when the bar is configured
to always show and neither a prompt, a message nor an error is active. -/
theorem message_returns (rw : Char → Nat) (cfg : Config) (i : InfoWindow) :
    (Display.message rw cfg i).2 =
      (cfg.infobar && !i.HasPrompt && !i.HasMessage && !i.HasError) := by
  unfold Display.message
  cases i.HasPrompt <;> cases cfg.infobar <;> cases i.HasMessage <;> cases i.HasError <;> rfl

/-- C4: with width 10, suggestions `abc de fghij`, current index 2 and prior offset
0, a frame that reaches the suggestion strip sets `hscroll` to 3, leaves the five
runes of `fghij` at columns 4..8 of the suggestion row (in the style of the
current candidate) and the `<` arrow at column 0. -/
theorem Display_example (rw : Char → Nat) (cfg : Config) (i : InfoWindow)
    (hrw : ∀ c ∈ "abcdefghij ".toList, rw c = 1)
    (hW : i.Width = 10)
    (hS : i.Suggestions = ["abc".toList, "de".toList, "fghij".toList])
    (hc : i.CurSuggestion = 2) (hh : i.hscroll = 0) (hs : i.HasSuggestions = true)
    (hshown : i.HasPrompt = true ∨ i.HasMessage = true ∨ i.HasError = true ∨
      cfg.infobar = false) :
    ∃ i1 es, Display rw cfg i = some (i1, es) ∧ i1.hscroll = 3 ∧
      cellAt es 0 (Display.suggestionRow cfg i) = some ('<', Display.statusLineStyle cfg) ∧
      cellAt es 4 (Display.suggestionRow cfg i) =
        some ('f', (Display.statusLineStyle cfg).Reverse true) ∧
      cellAt es 5 (Display.suggestionRow cfg i) =
        some ('g', (Display.statusLineStyle cfg).Reverse true) ∧
      cellAt es 6 (Display.suggestionRow cfg i) =
        some ('h', (Display.statusLineStyle cfg).Reverse true) ∧
      cellAt es 7 (Display.suggestionRow cfg i) =
        some ('i', (Display.statusLineStyle cfg).Reverse true) ∧
      cellAt es 8 (Display.suggestionRow cfg i) =
        some ('j', (Display.statusLineStyle cfg).Reverse true) := by
  have hm : (Display.message rw cfg i).2 = false := by
    rw [message_returns]
    rcases hshown with h | h | h | h <;> simp [h]
  have hsug := suggestions_example rw cfg i hrw hW hS hc hh hs
  unfold Display
  simp only [hm, hsug]
  refine ⟨_, _, rfl, rfl, ?_⟩
  simp [cellAt_append, cellAt]

/-- Witness for C4: a window that shows only the suggestion list. -/
theorem Display_example_witness :
    ∃ i1 es, Display sampleWidth plainConfig
        (suggWindow ["abc".toList, "de".toList, "fghij".toList] 2 10 0) = some (i1, es) ∧
      i1.hscroll = 3 ∧
      cellAt es 0 (Display.suggestionRow plainConfig
        (suggWindow ["abc".toList, "de".toList, "fghij".toList] 2 10 0)) =
        some ('<', Display.statusLineStyle plainConfig) ∧
      cellAt es 4 (Display.suggestionRow plainConfig
        (suggWindow ["abc".toList, "de".toList, "fghij".toList] 2 10 0)) =
        some ('f', (Display.statusLineStyle plainConfig).Reverse true) ∧
      cellAt es 5 (Display.suggestionRow plainConfig
        (suggWindow ["abc".toList, "de".toList, "fghij".toList] 2 10 0)) =
        some ('g', (Display.statusLineStyle plainConfig).Reverse true) ∧
      cellAt es 6 (Display.suggestionRow plainConfig
        (suggWindow ["abc".toList, "de".toList, "fghij".toList] 2 10 0)) =
        some ('h', (Display.statusLineStyle plainConfig).Reverse true) ∧
      cellAt es 7 (Display.suggestionRow plainConfig
        (suggWindow ["abc".toList, "de".toList, "fghij".toList] 2 10 0)) =
        some ('i', (Display.statusLineStyle plainConfig).Reverse true) ∧
      cellAt es 8 (Display.suggestionRow plainConfig
        (suggWindow ["abc".toList, "de".toList, "fghij".toList] 2 10 0)) =
        some ('j', (Display.statusLineStyle plainConfig).Reverse true) :=
  Display_example sampleWidth plainConfig
    (suggWindow ["abc".toList, "de".toList, "fghij".toList] 2 10 0)
    (by decide) rfl rfl rfl rfl rfl (by decide)

/-- C3 (the code at a failing input): for the list `a b` in a viewport of width 10
the content (total size 4) fits and the offset is 0 after the frame, yet the `>`
arrow is written at the last column of the suggestion row, and stays there. -/
theorem Display_fitting_list_writes_arrow :
    totalSize sampleWidth (suggWindow ["a".toList, "b".toList] 0 10 0) ≤
      (suggWindow ["a".toList, "b".toList] 0 10 0).Width ∧
    (Display sampleWidth plainConfig (suggWindow ["a".toList, "b".toList] 0 10 0)).map
        (fun r => (r.1.hscroll, cellWrites r.2)) =
      some (0,
        [(0, 9, 'a', (Display.statusLineStyle plainConfig).Reverse true),
         (1, 9, ' ', Display.statusLineStyle plainConfig),
         (2, 9, 'b', Display.statusLineStyle plainConfig),
         (3, 9, ' ', Display.statusLineStyle plainConfig),
         (4, 9, ' ', Display.statusLineStyle plainConfig),
         (5, 9, ' ', Display.statusLineStyle plainConfig),
         (6, 9, ' ', Display.statusLineStyle plainConfig),
         (7, 9, ' ', Display.statusLineStyle plainConfig),
         (8, 9, ' ', Display.statusLineStyle plainConfig),
         (9, 9, '>', Display.statusLineStyle plainConfig)]) := by
  decide

/-! ## The prompt line -/

theorem draw_of_nonpos (rw : Char → Nat) (cfg : Config) (i : InfoWindow) (st : DrawState)
    (r : Char) (style : Style) (hn : st.nColsBeforeStart ≤ 0) :
    displayBuffer.draw rw cfg i st r style =
      ({ st with vlocX := st.vlocX + 1, nColsBeforeStart := st.nColsBeforeStart - 1 },
        drawnCells rw cfg i st.vlocX st.blocX r style) := by
  unfold displayBuffer.draw drawnCells
  simp [hn]

theorem fill_of_nonpos (rw : Char → Nat) (cfg : Config) (i : InfoWindow) (char : Char)
    (n : Nat) (st : DrawState) (hn : st.nColsBeforeStart ≤ 0) :
    displayBuffer.fill rw cfg i char n st =
      ({ st with vlocX := st.vlocX + n, nColsBeforeStart := st.nColsBeforeStart - n },
        fillerCells rw cfg i st.vlocX st.blocX char n) := by
  induction n generalizing st with
  | zero => simp [displayBuffer.fill, fillerCells]
  | succ n ih =>
    unfold displayBuffer.fill
    simp only [draw_of_nonpos rw cfg i st char _ hn]
    rw [ih _ (by simp only; omega)]
    simp only [fillerCells, Nat.cast_add, Nat.cast_one]
    refine Prod.ext ?_ rfl
    simp only
    congr 1 <;> omega

theorem step_of_nonpos (rw : Char → Nat) (cfg : Config) (i : InfoWindow) (st : DrawState)
    (r : Char) (hn : st.nColsBeforeStart ≤ 0) (htw : 0 ≤ st.totalwidth) :
    displayBuffer.step rw cfg i st r =
      ({ vlocX := st.vlocX + 1 + fillCount (runeCells rw st.totalwidth r),
         blocX := st.blocX + 1,
         nColsBeforeStart := st.nColsBeforeStart - 1 - fillCount (runeCells rw st.totalwidth r),
         totalwidth := st.totalwidth + runeCells rw st.totalwidth r },
        drawnCells rw cfg i st.vlocX st.blocX r (defStyle cfg) ++
          fillerCells rw cfg i (st.vlocX + 1) (st.blocX + 1) (if r = '\t' then ' ' else '@')
            (fillCount (runeCells rw st.totalwidth r)) ++
          (if i.cursor.X = st.blocX then [Event.ShowCursor st.vlocX i.Y] else [])) := by
  have hmod : st.totalwidth.tmod displayBuffer.tabsize = st.totalwidth % 4 := by
    unfold displayBuffer.tabsize
    exact Int.tmod_eq_emod htw (by omega)
  unfold displayBuffer.step
  simp only [draw_of_nonpos rw cfg i st r _ hn, hmod]
  unfold fillCount runeCells displayBuffer.tabsize
  by_cases hw : (if r = '\t' then (4 : Int) - st.totalwidth % 4 else (rw r : Int)) > 1
  · simp only [hw, if_true]
    rw [fill_of_nonpos _ _ _ _ _ _ (by simp only; omega)]
  · simp only [hw, if_false, List.append_nil, fillerCells, Nat.cast_zero, add_zero, sub_zero]

theorem loop_cons (rw : Char → Nat) (cfg : Config) (i : InfoWindow) (r : Char)
    (rest : List Char) (st : DrawState) :
    displayBuffer.loop rw cfg i (r :: rest) st =
      if (displayBuffer.step rw cfg i st r).1.vlocX ≥ i.Width then displayBuffer.step rw cfg i st r
      else ((displayBuffer.loop rw cfg i rest (displayBuffer.step rw cfg i st r).1).1,
        (displayBuffer.step rw cfg i st r).2 ++
          (displayBuffer.loop rw cfg i rest (displayBuffer.step rw cfg i st r).1).2) := rfl

theorem loop_nil (rw : Char → Nat) (cfg : Config) (i : InfoWindow) (st : DrawState) :
    displayBuffer.loop rw cfg i [] st = (st, []) := rfl

/-- While the running column stays below the width, the loop on a concatenation is
the loop on the first part followed by the loop on the second. -/
theorem loop_append (rw : Char → Nat) (cfg : Config) (i : InfoWindow) (pre post : List Char)
    (st : DrawState) (h : (displayBuffer.loop rw cfg i pre st).1.vlocX < i.Width ∨ pre = []) :
    displayBuffer.loop rw cfg i (pre ++ post) st =
      ((displayBuffer.loop rw cfg i post (displayBuffer.loop rw cfg i pre st).1).1,
        (displayBuffer.loop rw cfg i pre st).2 ++
          (displayBuffer.loop rw cfg i post (displayBuffer.loop rw cfg i pre st).1).2) := by
  induction pre generalizing st with
  | nil => simp [loop_nil]
  | cons r pre ih =>
    have h1 : (displayBuffer.loop rw cfg i (r :: pre) st).1.vlocX < i.Width := by
      rcases h with h | h
      · exact h
      · simp at h
    rw [loop_cons] at h1 ⊢
    rw [List.cons_append, loop_cons]
    by_cases hb : (displayBuffer.step rw cfg i st r).1.vlocX ≥ i.Width
    · simp only [hb, if_true] at h1
      omega
    · simp only [hb, if_false] at h1 ⊢
      rw [ih _ (Or.inl h1)]
      simp only [List.append_assoc]

theorem tab_cells_bounds (tw : Int) : 1 ≤ 4 - tw % 4 ∧ 4 - tw % 4 ≤ 4 := by
  have h1 := Int.emod_nonneg tw (show (4 : Int) ≠ 0 by decide)
  have h2 := Int.emod_lt_of_pos tw (show (0 : Int) < 4 by decide)
  omega

theorem runeCells_nonneg (rw : Char → Nat) (tw : Int) (r : Char) : 0 ≤ runeCells rw tw r := by
  unfold runeCells
  split_ifs
  · have := tab_cells_bounds tw; omega
  · exact Int.natCast_nonneg _

theorem runeCells_pos (rw : Char → Nat) (tw : Int) (r : Char) (h : r = '\t' ∨ 0 < rw r) :
    1 ≤ runeCells rw tw r := by
  unfold runeCells
  split_ifs with ht
  · have := tab_cells_bounds tw; omega
  · rcases h with h | h
    · exact absurd h ht
    · omega

theorem fillCount_of_pos (w : Int) (h : 1 ≤ w) : (1 : Int) + fillCount w = w := by
  unfold fillCount
  split_ifs <;> omega

theorem lineWidth_ge (rw : Char → Nat) (line : List Char) (tw : Int) :
    tw ≤ lineWidth rw line tw := by
  induction line generalizing tw with
  | nil => exact le_refl _
  | cons r rest ih =>
    have := ih (tw + runeCells rw tw r)
    have := runeCells_nonneg rw tw r
    simp only [lineWidth]
    omega

theorem lineWidth_append (rw : Char → Nat) (pre post : List Char) (tw : Int) :
    lineWidth rw (pre ++ post) tw = lineWidth rw post (lineWidth rw pre tw) := by
  induction pre generalizing tw with
  | nil => rfl
  | cons r rest ih =>
    rw [List.cons_append]
    simp only [lineWidth]
    exact ih _

/-- The loop keeps "nothing left to skip" and a non-negative consumed width. -/
theorem loop_inv (rw : Char → Nat) (cfg : Config) (i : InfoWindow) (line : List Char)
    (st : DrawState) (hn : st.nColsBeforeStart ≤ 0) (htw : 0 ≤ st.totalwidth) :
    (displayBuffer.loop rw cfg i line st).1.nColsBeforeStart ≤ 0 ∧
      0 ≤ (displayBuffer.loop rw cfg i line st).1.totalwidth ∧
      st.vlocX ≤ (displayBuffer.loop rw cfg i line st).1.vlocX := by
  induction line generalizing st with
  | nil => simp [loop_nil, hn, htw]
  | cons r rest ih =>
    have hs := step_of_nonpos rw cfg i st r hn htw
    have hc := runeCells_nonneg rw st.totalwidth r
    rw [loop_cons]
    split_ifs
    · rw [hs]; simp only; omega
    · have := ih (displayBuffer.step rw cfg i st r).1 (by rw [hs]; simp only; omega)
        (by rw [hs]; simp only; omega)
      simp only
      refine ⟨this.1, this.2.1, le_trans ?_ this.2.2⟩
      rw [hs]; simp only; omega

/-- A line without zero-width runes that fits the view is painted to its end: the
final state of the loop. -/
theorem loop_fits (rw : Char → Nat) (cfg : Config) (i : InfoWindow) (line : List Char)
    (st : DrawState) (hn : st.nColsBeforeStart ≤ 0) (htw : 0 ≤ st.totalwidth)
    (hnz : ∀ r ∈ line, r = '\t' ∨ 0 < rw r)
    (hfit : st.vlocX + (lineWidth rw line st.totalwidth - st.totalwidth) ≤ i.Width) :
    (displayBuffer.loop rw cfg i line st).1 =
      { vlocX := st.vlocX + (lineWidth rw line st.totalwidth - st.totalwidth),
        blocX := st.blocX + line.length,
        nColsBeforeStart :=
          st.nColsBeforeStart - (lineWidth rw line st.totalwidth - st.totalwidth),
        totalwidth := lineWidth rw line st.totalwidth } := by
  induction line generalizing st with
  | nil => simp [loop_nil, lineWidth]
  | cons r rest ih =>
    have hs := step_of_nonpos rw cfg i st r hn htw
    have hc := runeCells_pos rw st.totalwidth r (hnz r (List.mem_cons_self _ _))
    have hf := fillCount_of_pos _ hc
    have hge := lineWidth_ge rw rest (st.totalwidth + runeCells rw st.totalwidth r)
    simp only [lineWidth] at hfit ⊢
    have hrest := ih (displayBuffer.step rw cfg i st r).1 (by rw [hs]; simp only; omega)
      (by rw [hs]; simp only; omega) (fun c hc => hnz c (List.mem_cons_of_mem _ hc))
      (by rw [hs]; simp only; omega)
    rw [loop_cons]
    by_cases hb : (displayBuffer.step rw cfg i st r).1.vlocX ≥ i.Width
    · -- the width is reached exactly at the last rune
      simp only [hb, if_true]
      have hnil : rest = [] := by
        cases rest with
        | nil => rfl
        | cons c rest2 =>
          exfalso
          have hc2 := runeCells_pos rw (st.totalwidth + runeCells rw st.totalwidth r) c
            (hnz c (by simp))
          have hge2 := lineWidth_ge rw rest2
            (st.totalwidth + runeCells rw st.totalwidth r +
              runeCells rw (st.totalwidth + runeCells rw st.totalwidth r) c)
          rw [hs] at hb
          simp only [lineWidth] at hfit hb
          omega
      subst hnil
      rw [hs]
      simp only [lineWidth, List.length_cons, List.length_nil, Nat.cast_add, Nat.cast_one,
        Nat.cast_zero]
      rw [DrawState.mk.injEq]
      refine ⟨?_, ?_, ?_, ?_⟩ <;> omega
    · simp only [hb, if_false]
      rw [hrest, hs]
      simp only [List.length_cons, Nat.cast_add, Nat.cast_one]
      rw [DrawState.mk.injEq]
      refine ⟨?_, ?_, ?_, ?_⟩ <;> omega

theorem colsWithin_append (e1 e2 : List Event) (a b : Int) (h1 : colsWithin e1 a b)
    (h2 : colsWithin e2 a b) : colsWithin (e1 ++ e2) a b := by
  intro x y r s hm
  rcases List.mem_append.1 hm with h | h
  · exact h1 x y r s h
  · exact h2 x y r s h

theorem colsWithin_mono (es : List Event) (a b a1 b1 : Int) (h : colsWithin es a b)
    (ha : a1 ≤ a) (hb : b ≤ b1) : colsWithin es a1 b1 := by
  intro x y r s hm
  have := h x y r s hm
  omega

theorem drawnCells_cols (rw : Char → Nat) (cfg : Config) (i : InfoWindow) (v p : Int)
    (r : Char) (style : Style) : colsWithin (drawnCells rw cfg i v p r style) v (v + 1) := by
  intro x y c s hm
  unfold drawnCells at hm
  simp only [List.mem_map, List.mem_range] at hm
  obtain ⟨j, _, hj⟩ := hm
  injection hj with hx
  omega

theorem fillerCells_cols (rw : Char → Nat) (cfg : Config) (i : InfoWindow) (v p : Int)
    (char : Char) (n : Nat) : colsWithin (fillerCells rw cfg i v p char n) v (v + n) := by
  induction n generalizing v with
  | zero => intro x y c s hm; simp [fillerCells] at hm
  | succ n ih =>
    simp only [fillerCells]
    apply colsWithin_append
    · exact colsWithin_mono _ _ _ _ _ (drawnCells_cols rw cfg i v p char _) (le_refl _)
        (by push_cast; omega)
    · exact colsWithin_mono _ _ _ _ _ (ih (v + 1)) (by omega) (by push_cast; omega)

theorem step_cols (rw : Char → Nat) (cfg : Config) (i : InfoWindow) (st : DrawState)
    (r : Char) (hn : st.nColsBeforeStart ≤ 0) (htw : 0 ≤ st.totalwidth) :
    colsWithin (displayBuffer.step rw cfg i st r).2 st.vlocX
      (displayBuffer.step rw cfg i st r).1.vlocX := by
  rw [step_of_nonpos rw cfg i st r hn htw]
  simp only
  apply colsWithin_append
  · apply colsWithin_append
    · exact colsWithin_mono _ _ _ _ _ (drawnCells_cols rw cfg i _ _ r _) (le_refl _) (by omega)
    · exact colsWithin_mono _ _ _ _ _ (fillerCells_cols rw cfg i _ _ _ _) (by omega) (by omega)
  · intro x y c s hm
    split_ifs at hm <;> simp at hm

/-- Every cell the loop writes lies between the running column at its start and the
running column at its end. -/
theorem loop_cols (rw : Char → Nat) (cfg : Config) (i : InfoWindow) (line : List Char)
    (st : DrawState) (hn : st.nColsBeforeStart ≤ 0) (htw : 0 ≤ st.totalwidth) :
    colsWithin (displayBuffer.loop rw cfg i line st).2 st.vlocX
      (displayBuffer.loop rw cfg i line st).1.vlocX := by
  induction line generalizing st with
  | nil => intro x y c s hm; simp [loop_nil] at hm
  | cons r rest ih =>
    have hs := step_of_nonpos rw cfg i st r hn htw
    have hc := runeCells_nonneg rw st.totalwidth r
    have hsc := step_cols rw cfg i st r hn htw
    rw [loop_cons]
    split_ifs
    · exact hsc
    · have hn1 : (displayBuffer.step rw cfg i st r).1.nColsBeforeStart ≤ 0 := by
        rw [hs]; simp only; omega
      have htw1 : 0 ≤ (displayBuffer.step rw cfg i st r).1.totalwidth := by
        rw [hs]; simp only; omega
      have hrest := ih _ hn1 htw1
      have hmono := (loop_inv rw cfg i rest _ hn1 htw1).2.2
      have hstep : st.vlocX ≤ (displayBuffer.step rw cfg i st r).1.vlocX := by
        rw [hs]; simp only; omega
      simp only
      apply colsWithin_append
      · exact colsWithin_mono _ _ _ _ _ hsc (le_refl _) hmono
      · exact colsWithin_mono _ _ _ _ _ hrest hstep (le_refl _)

theorem fillCount_le (w : Int) (h : w ≤ 4) : (fillCount w : Int) ≤ 3 := by
  unfold fillCount
  split_ifs <;> omega

/-- The loop is left at the latest three columns after the last column of the view,
or within the four cells of the first rune. -/
theorem loop_vloc_bound (rw : Char → Nat) (cfg : Config) (i : InfoWindow) (line : List Char)
    (st : DrawState) (hn : st.nColsBeforeStart ≤ 0) (htw : 0 ≤ st.totalwidth)
    (hrw : ∀ r, rw r ≤ 2) :
    (displayBuffer.loop rw cfg i line st).1.vlocX ≤ max (i.Width + 3) (st.vlocX + 4) := by
  induction line generalizing st with
  | nil => simp only [loop_nil]; exact le_trans (by omega) (le_max_right _ _)
  | cons r rest ih =>
    have hs := step_of_nonpos rw cfg i st r hn htw
    have hc := runeCells_nonneg rw st.totalwidth r
    have hc4 : runeCells rw st.totalwidth r ≤ 4 := by
      unfold runeCells
      split_ifs
      · have := tab_cells_bounds st.totalwidth; omega
      · have := hrw r; omega
    have hf := fillCount_le _ hc4
    rw [loop_cons]
    split_ifs with hb
    · rw [hs]; simp only
      exact le_trans (by omega) (le_max_right _ _)
    · have hrest := ih (displayBuffer.step rw cfg i st r).1 (by rw [hs]; simp only; omega)
        (by rw [hs]; simp only; omega)
      simp only
      refine le_trans hrest ?_
      apply max_le
      · exact le_max_left _ _
      · exact le_trans (by omega) (le_max_left _ _)

theorem slice_loop_cols (rw : Char → Nat) (b : List Char) (k : Int) :
    (SliceVisualEndLoop rw 0 displayBuffer.tabsize b 0 k).2.1 = 0 ∧
      k ≤ (SliceVisualEndLoop rw 0 displayBuffer.tabsize b 0 k).2.2 := by
  induction b generalizing k with
  | nil => simp [SliceVisualEndLoop]
  | cons r rest ih =>
    unfold SliceVisualEndLoop
    by_cases ht : r = '\t'
    · subst ht
      simp only [if_true]
      rw [if_pos (by decide)]
      simp
    · simp only [ht, if_false]
      by_cases hw : (0 : Int) + (rw r : Int) > 0
      · rw [if_pos hw]
        simp
      · rw [if_neg hw]
        have hz : (0 : Int) + (rw r : Int) = 0 := by omega
        rw [hz]
        have := ih (k + 1)
        exact ⟨this.1, by omega⟩

/-- The initial skip leaves a line alone whose first rune occupies a cell. -/
theorem slice_id (rw : Char → Nat) (line : List Char)
    (h : ∀ r ∈ line.head?, r = '\t' ∨ 0 < rw r) :
    SliceVisualEnd rw line 0 displayBuffer.tabsize = (line, 0, 0) := by
  unfold SliceVisualEnd
  cases line with
  | nil => simp [SliceVisualEndLoop]
  | cons r rest =>
    have hr := h r (by simp)
    unfold SliceVisualEndLoop
    rcases hr with hr | hr
    · subst hr
      simp only [if_true]
      rw [if_pos (by decide)]
      simp
    · by_cases ht : r = '\t'
      · subst ht
        simp only [if_true]
        rw [if_pos (by decide)]
        simp
      · simp only [ht, if_false]
        rw [if_pos (by omega)]
        simp

theorem cursorCalls_append (a b : List Event) :
    cursorCalls (a ++ b) = cursorCalls a ++ cursorCalls b := by
  induction a with
  | nil => rfl
  | cons e rest ih =>
    cases e with
    | SetContent x y r s => simpa [cursorCalls] using ih
    | ShowCursor x y => simpa [cursorCalls] using ih

theorem cellWrites_append (a b : List Event) :
    cellWrites (a ++ b) = cellWrites a ++ cellWrites b := by
  induction a with
  | nil => rfl
  | cons e rest ih =>
    cases e with
    | SetContent x y r s => simpa [cellWrites] using ih
    | ShowCursor x y => simpa [cellWrites] using ih

theorem cursorCalls_map_SetContent (l : List Nat) (f : Nat → Int × Int × Char × Style) :
    cursorCalls (l.map (fun j => Event.SetContent (f j).1 (f j).2.1 (f j).2.2.1 (f j).2.2.2)) = [] := by
  induction l with
  | nil => rfl
  | cons a rest ih => simpa [cursorCalls] using ih

theorem cursorCalls_drawnCells (rw : Char → Nat) (cfg : Config) (i : InfoWindow) (v p : Int)
    (r : Char) (style : Style) : cursorCalls (drawnCells rw cfg i v p r style) = [] := by
  unfold drawnCells
  exact cursorCalls_map_SetContent _
    (fun j => (v, i.Y, (if j > 0 then ' ' else r), displayBuffer.drawStyle cfg i.cursor p style))

theorem cursorCalls_fillerCells (rw : Char → Nat) (cfg : Config) (i : InfoWindow) (v p : Int)
    (char : Char) (n : Nat) : cursorCalls (fillerCells rw cfg i v p char n) = [] := by
  induction n generalizing v with
  | zero => rfl
  | succ n ih => simp [fillerCells, cursorCalls_append, cursorCalls_drawnCells, ih]

theorem step_cursorCalls (rw : Char → Nat) (cfg : Config) (i : InfoWindow) (st : DrawState)
    (r : Char) (hn : st.nColsBeforeStart ≤ 0) (htw : 0 ≤ st.totalwidth) :
    cursorCalls (displayBuffer.step rw cfg i st r).2 =
      if i.cursor.X = st.blocX then [(st.vlocX, i.Y)] else [] := by
  rw [step_of_nonpos rw cfg i st r hn htw]
  simp only [cursorCalls_append, cursorCalls_drawnCells, cursorCalls_fillerCells, List.nil_append]
  split_ifs <;> rfl

/-- The `ShowCursor` calls of the loop on a line without zero-width runes that fits
the view: one call, at the column where the rune under the cursor starts, when the
cursor is on a rune of the line. -/
theorem loop_cursorCalls (rw : Char → Nat) (cfg : Config) (i : InfoWindow) (line : List Char)
    (st : DrawState) (hn : st.nColsBeforeStart ≤ 0) (htw : 0 ≤ st.totalwidth)
    (hnz : ∀ r ∈ line, r = '\t' ∨ 0 < rw r)
    (hfit : st.vlocX + (lineWidth rw line st.totalwidth - st.totalwidth) ≤ i.Width) :
    cursorCalls (displayBuffer.loop rw cfg i line st).2 =
      if st.blocX ≤ i.cursor.X ∧ i.cursor.X < st.blocX + line.length then
        [(st.vlocX + (lineWidth rw (line.take (i.cursor.X - st.blocX).toNat) st.totalwidth -
            st.totalwidth), i.Y)]
      else [] := by
  induction line generalizing st with
  | nil =>
    simp only [loop_nil, cursorCalls, List.length_nil, Nat.cast_zero, add_zero]
    rw [if_neg (by omega)]
  | cons r rest ih =>
    have hs := step_of_nonpos rw cfg i st r hn htw
    have hsc := step_cursorCalls rw cfg i st r hn htw
    have hc := runeCells_pos rw st.totalwidth r (hnz r (List.mem_cons_self _ _))
    have hf := fillCount_of_pos _ hc
    have hge := lineWidth_ge rw rest (st.totalwidth + runeCells rw st.totalwidth r)
    simp only [lineWidth] at hfit
    have hrest := ih (displayBuffer.step rw cfg i st r).1 (by rw [hs]; simp only; omega)
      (by rw [hs]; simp only; omega) (fun c hc => hnz c (List.mem_cons_of_mem _ hc))
      (by rw [hs]; simp only; omega)
    -- whether or not the loop is left after `r`, the calls are those of the step
    -- followed by those of the loop on the rest
    have hcalls : cursorCalls (displayBuffer.loop rw cfg i (r :: rest) st).2 =
        cursorCalls (displayBuffer.step rw cfg i st r).2 ++
          cursorCalls (displayBuffer.loop rw cfg i rest (displayBuffer.step rw cfg i st r).1).2 := by
      rw [loop_cons]
      by_cases hb : (displayBuffer.step rw cfg i st r).1.vlocX ≥ i.Width
      · have hnil : rest = [] := by
          cases rest with
          | nil => rfl
          | cons c rest2 =>
            exfalso
            have hc2 := runeCells_pos rw (st.totalwidth + runeCells rw st.totalwidth r) c
              (hnz c (by simp))
            have hge2 := lineWidth_ge rw rest2
              (st.totalwidth + runeCells rw st.totalwidth r +
                runeCells rw (st.totalwidth + runeCells rw st.totalwidth r) c)
            rw [hs] at hb
            simp only [lineWidth] at hfit hb
            omega
        subst hnil
        simp only [hb, if_true, loop_nil, cursorCalls, List.append_nil]
      · simp only [hb, if_false, cursorCalls_append]
    rw [hcalls, hsc, hrest, hs]
    simp only [List.length_cons, Nat.cast_add, Nat.cast_one]
    by_cases hx : i.cursor.X = st.blocX
    · have h0 : (i.cursor.X - st.blocX).toNat = 0 := by omega
      rw [if_pos hx, if_neg (by omega), if_pos (by omega), h0]
      simp only [List.take_zero, lineWidth, sub_self, add_zero, List.append_nil]
    · rw [if_neg hx, List.nil_append]
      by_cases hr : st.blocX + 1 ≤ i.cursor.X ∧ i.cursor.X < st.blocX + 1 + rest.length
      · have h1 : (i.cursor.X - st.blocX).toNat = (i.cursor.X - (st.blocX + 1)).toNat + 1 := by
          omega
        rw [if_pos hr, if_pos (by omega), h1]
        simp only [List.take_succ_cons, lineWidth]
        congr 2
        omega
      · rw [if_neg hr, if_neg (by omega)]

theorem init_of_slice_id (rw : Char → Nat) (i : InfoWindow)
    (hfirst : ∀ c ∈ i.line.head?, c = '\t' ∨ 0 < rw c) :
    displayBuffer.init rw i =
      { vlocX := RuneCountInString i.Msg, blocX := 0, nColsBeforeStart := 0, totalwidth := 0 } := by
  unfold displayBuffer.init
  simp only [slice_id rw i.line hfirst, sub_self]

/-- While the loop has not been left, the logical position has advanced by one per
rune. -/
theorem loop_blocX (rw : Char → Nat) (cfg : Config) (i : InfoWindow) (pre : List Char)
    (st : DrawState) (hn : st.nColsBeforeStart ≤ 0) (htw : 0 ≤ st.totalwidth)
    (h : (displayBuffer.loop rw cfg i pre st).1.vlocX < i.Width ∨ pre = []) :
    (displayBuffer.loop rw cfg i pre st).1.blocX = st.blocX + pre.length := by
  induction pre generalizing st with
  | nil => simp [loop_nil]
  | cons r pre ih =>
    have h1 : (displayBuffer.loop rw cfg i (r :: pre) st).1.vlocX < i.Width := by
      rcases h with h | h
      · exact h
      · simp at h
    have hs := step_of_nonpos rw cfg i st r hn htw
    have hc := runeCells_nonneg rw st.totalwidth r
    rw [loop_cons] at h1 ⊢
    by_cases hb : (displayBuffer.step rw cfg i st r).1.vlocX ≥ i.Width
    · simp only [hb, if_true] at h1
      omega
    · simp only [hb, if_false] at h1 ⊢
      rw [ih _ (by rw [hs]; simp only; omega) (by rw [hs]; simp only; omega) (Or.inl h1), hs]
      simp only [List.length_cons, Nat.cast_add, Nat.cast_one]
      omega

/-- The calls of `displayBuffer` around a rune the loop reaches: those for the runes
before it, then those of the iteration on the rune, then the rest. -/
theorem displayBuffer_at (rw : Char → Nat) (cfg : Config) (i : InfoWindow)
    (pre : List Char) (r : Char) (post : List Char)
    (hline : i.line = pre ++ r :: post)
    (hfirst : ∀ c ∈ i.line.head?, c = '\t' ∨ 0 < rw c)
    (hreach : (displayBuffer.loop rw cfg i pre (displayBuffer.init rw i)).1.vlocX < i.Width ∨
      pre = []) :
    ∃ after, displayBuffer rw cfg i =
      (displayBuffer.loop rw cfg i pre (displayBuffer.init rw i)).2 ++
        (displayBuffer.step rw cfg i
          (displayBuffer.loop rw cfg i pre (displayBuffer.init rw i)).1 r).2 ++ after := by
  unfold displayBuffer
  simp only [slice_id rw i.line hfirst]
  rw [hline, loop_append rw cfg i pre (r :: post) _ hreach, loop_cons]
  split_ifs with hb hx hx
  · exact ⟨_, by simp only [List.append_assoc]; rfl⟩
  · exact ⟨[], by simp only [List.append_assoc, List.append_nil]⟩
  · exact ⟨_, by simp only [List.append_assoc]; rfl⟩
  · exact ⟨_, by simp only [List.append_assoc, List.append_nil]; rfl⟩

/-- A line without zero-width runes that fits the view is painted within the columns
from the label's rune count up to the running column at the end of the line. -/
theorem displayBuffer_cols_of_fits (rw : Char → Nat) (cfg : Config) (i : InfoWindow)
    (hnz : ∀ r ∈ i.line, r = '\t' ∨ 0 < rw r)
    (hfit : RuneCountInString i.Msg + lineWidth rw i.line 0 ≤ i.Width) :
    colsWithin (displayBuffer rw cfg i) (RuneCountInString i.Msg)
      (RuneCountInString i.Msg + lineWidth rw i.line 0) := by
  have hfirst : ∀ c ∈ i.line.head?, c = '\t' ∨ 0 < rw c :=
    fun c hc => hnz c (List.mem_of_mem_head? hc)
  have hinit := init_of_slice_id rw i hfirst
  have hall := loop_fits rw cfg i i.line (displayBuffer.init rw i) (by rw [hinit])
    (by rw [hinit]) hnz (by rw [hinit]; simp only; omega)
  have hcols := loop_cols rw cfg i i.line (displayBuffer.init rw i) (by rw [hinit])
    (by rw [hinit])
  rw [hall, hinit] at hcols
  simp only [sub_zero] at hcols
  unfold displayBuffer
  simp only [slice_id rw i.line hfirst]
  apply colsWithin_append
  · rw [hinit]
    exact hcols
  · intro x1 y1 r s hm
    split_ifs at hm <;> simp at hm

theorem Loc_GreaterEqual_line0 (p s : Int) :
    Loc.GreaterEqual ⟨p, 0⟩ ⟨s, 0⟩ = true ↔ s ≤ p := by
  unfold Loc.GreaterEqual
  simp only [gt_iff_lt, lt_self_iff_false, if_false, true_and, Loc.mk.injEq, and_true]
  split_ifs with h
  · simp only [true_iff]; omega
  · simp only [decide_eq_true_eq]; omega

theorem Loc_LessThan_line0 (p s : Int) :
    Loc.LessThan ⟨p, 0⟩ ⟨s, 0⟩ = true ↔ p < s := by
  unfold Loc.LessThan
  simp

/-- The selection test of `draw` on line 0 is membership in the half-open interval
between the smaller and the larger endpoint. -/
theorem selected_iff (c : Cursor) (p s0 s1 : Int) (h0 : c.CurSelection0 = ⟨s0, 0⟩)
    (h1 : c.CurSelection1 = ⟨s1, 0⟩) :
    displayBuffer.selected c p = true ↔
      (c.HasSelection = true ∧ min s0 s1 ≤ p ∧ p < max s0 s1) := by
  unfold displayBuffer.selected
  rw [h0, h1]
  simp only [Bool.and_eq_true, Bool.or_eq_true, Loc_GreaterEqual_line0, Loc_LessThan_line0]
  constructor
  · rintro ⟨hs, h | h⟩
    · exact ⟨hs, le_trans (min_le_left _ _) h.1, lt_of_lt_of_le h.2 (le_max_right _ _)⟩
    · exact ⟨hs, le_trans (min_le_right _ _) h.2, lt_of_lt_of_le h.1 (le_max_left _ _)⟩
  · rintro ⟨hs, hlo, hhi⟩
    refine ⟨hs, ?_⟩
    rcases le_total s0 s1 with h | h
    · rw [min_eq_left h] at hlo
      rw [max_eq_right h] at hhi
      exact Or.inl ⟨hlo, hhi⟩
    · rw [min_eq_right h] at hlo
      rw [max_eq_left h] at hhi
      exact Or.inr ⟨hhi, hlo⟩

theorem drawStyle_eq (cfg : Config) (c : Cursor) (p s0 s1 : Int) (style : Style)
    (h0 : c.CurSelection0 = ⟨s0, 0⟩) (h1 : c.CurSelection1 = ⟨s1, 0⟩) :
    displayBuffer.drawStyle cfg c p style =
      if c.HasSelection = true ∧ min s0 s1 ≤ p ∧ p < max s0 s1 then selectionStyle cfg
      else style := by
  unfold displayBuffer.drawStyle selectionStyle
  by_cases h : displayBuffer.selected c p = true
  · rw [if_pos h, if_pos ((selected_iff c p s0 s1 h0 h1).1 h)]
  · rw [if_neg h, if_neg (fun hh => h ((selected_iff c p s0 s1 h0 h1).2 hh))]

theorem selected_swap (c : Cursor) (p : Int) :
    displayBuffer.selected
        { c with CurSelection0 := c.CurSelection1, CurSelection1 := c.CurSelection0 } p =
      displayBuffer.selected c p := by
  unfold displayBuffer.selected
  simp only
  cases c.HasSelection <;>
    cases Loc.GreaterEqual ⟨p, 0⟩ c.CurSelection0 <;>
    cases Loc.LessThan ⟨p, 0⟩ c.CurSelection1 <;>
    cases Loc.LessThan ⟨p, 0⟩ c.CurSelection0 <;>
    cases Loc.GreaterEqual ⟨p, 0⟩ c.CurSelection1 <;> rfl

theorem draw_swap (rw : Char → Nat) (cfg : Config) (i : InfoWindow) (st : DrawState)
    (r : Char) (style : Style) :
    displayBuffer.draw rw cfg (swapSelection i) st r style =
      displayBuffer.draw rw cfg i st r style := by
  unfold displayBuffer.draw displayBuffer.drawStyle swapSelection
  simp only [selected_swap]

theorem fill_swap (rw : Char → Nat) (cfg : Config) (i : InfoWindow) (char : Char) (n : Nat)
    (st : DrawState) :
    displayBuffer.fill rw cfg (swapSelection i) char n st =
      displayBuffer.fill rw cfg i char n st := by
  induction n generalizing st with
  | zero => rfl
  | succ n ih =>
    unfold displayBuffer.fill
    simp only [draw_swap, ih]

theorem step_swap (rw : Char → Nat) (cfg : Config) (i : InfoWindow) (st : DrawState)
    (r : Char) :
    displayBuffer.step rw cfg (swapSelection i) st r = displayBuffer.step rw cfg i st r := by
  unfold displayBuffer.step
  simp only [draw_swap, fill_swap]
  rfl

theorem loop_swap (rw : Char → Nat) (cfg : Config) (i : InfoWindow) (line : List Char)
    (st : DrawState) :
    displayBuffer.loop rw cfg (swapSelection i) line st = displayBuffer.loop rw cfg i line st := by
  induction line generalizing st with
  | nil => rfl
  | cons r rest ih =>
    rw [loop_cons, loop_cons, step_swap, ih]
    rfl

theorem cellWrites_fillerCells_blank (rw : Char → Nat) (cfg : Config) (i : InfoWindow)
    (v p : Int) (n : Nat) (hsp : rw ' ' = 1) :
    cellWrites (fillerCells rw cfg i v p ' ' n) =
      (List.range n).map (fun (k : Nat) =>
        (v + (k : Int), i.Y, ' ', displayBuffer.drawStyle cfg i.cursor p (defStyle cfg))) := by
  induction n generalizing v with
  | zero => rfl
  | succ n ih =>
    simp only [fillerCells, cellWrites_append, ih, drawnCells, hsp]
    rw [List.range_succ_eq_map n]
    simp only [List.map_cons, List.map_nil, cellWrites, List.map_map,
      List.singleton_append, Nat.cast_zero, add_zero]
    congr 1
    apply List.map_congr_left
    intro k _
    simp only [Function.comp, Nat.succ_eq_add_one, Nat.cast_add, Nat.cast_one]
    congr 1
    omega

/-- C6 (amended): a tab of a fitting line, preceded by runes that each occupy a cell,
starts at the column `c` counted from the start of the buffer content (the label's
rune count is not part of it); the iteration on the tab advances the running
column by exactly `4 - c mod 4` and writes blanks, and only blanks, to the
`4 - c mod 4 - 1` cells after the first cell of the tab. -/
theorem displayBuffer_tab (rw : Char → Nat) (cfg : Config) (i : InfoWindow)
    (pre post : List Char)
    (hline : i.line = pre ++ '\t' :: post)
    (hnz : ∀ r ∈ pre, r = '\t' ∨ 0 < rw r)
    (htab : rw '\t' = 0) (hsp : rw ' ' = 1)
    (hfit : RuneCountInString i.Msg + lineWidth rw i.line 0 ≤ i.Width) :
    (displayBuffer.loop rw cfg i pre (displayBuffer.init rw i)).1.vlocX =
      RuneCountInString i.Msg + lineWidth rw pre 0 ∧
    (displayBuffer.step rw cfg i
        (displayBuffer.loop rw cfg i pre (displayBuffer.init rw i)).1 '\t').1.vlocX =
      (displayBuffer.loop rw cfg i pre (displayBuffer.init rw i)).1.vlocX +
        (4 - lineWidth rw pre 0 % 4) ∧
    cellWrites (displayBuffer.step rw cfg i
        (displayBuffer.loop rw cfg i pre (displayBuffer.init rw i)).1 '\t').2 =
      (List.range (4 - lineWidth rw pre 0 % 4 - 1).toNat).map (fun (k : Nat) =>
        ((displayBuffer.loop rw cfg i pre (displayBuffer.init rw i)).1.vlocX + 1 + (k : Int), i.Y, ' ',
          displayBuffer.drawStyle cfg i.cursor (pre.length + 1) (defStyle cfg))) ∧
    ∃ after, displayBuffer rw cfg i =
      (displayBuffer.loop rw cfg i pre (displayBuffer.init rw i)).2 ++
        (displayBuffer.step rw cfg i
          (displayBuffer.loop rw cfg i pre (displayBuffer.init rw i)).1 '\t').2 ++ after := by
  have hfirst : ∀ c ∈ i.line.head?, c = '\t' ∨ 0 < rw c := by
    intro c hc
    rw [hline] at hc
    cases pre with
    | nil =>
      simp only [List.nil_append, List.head?_cons, Option.mem_def, Option.some.injEq] at hc
      exact Or.inl hc.symm
    | cons a rest =>
      simp only [List.cons_append, List.head?_cons, Option.mem_def, Option.some.injEq] at hc
      exact hnz c (by rw [← hc]; exact List.mem_cons_self _ _)
  have hinit := init_of_slice_id rw i hfirst
  have hc0 := lineWidth_ge rw pre 0
  have htb := tab_cells_bounds (lineWidth rw pre 0)
  have hw : lineWidth rw pre 0 + (4 - lineWidth rw pre 0 % 4) ≤ lineWidth rw i.line 0 := by
    rw [hline, lineWidth_append]
    have := lineWidth_ge rw post (lineWidth rw pre 0 + runeCells rw (lineWidth rw pre 0) '\t')
    simp only [lineWidth]
    unfold runeCells at this ⊢
    simp only [if_true] at this ⊢
    exact this
  have hpre := loop_fits rw cfg i pre (displayBuffer.init rw i) (by rw [hinit]) (by rw [hinit])
    hnz (by rw [hinit]; simp only; omega)
  rw [hinit] at hpre
  simp only [sub_zero, zero_add, zero_sub] at hpre
  have hstep := step_of_nonpos rw cfg i
    (displayBuffer.loop rw cfg i pre (displayBuffer.init rw i)).1 '\t'
    (by rw [hinit, hpre]; simp only; omega) (by rw [hinit, hpre]; exact hc0)
  have hcells : runeCells rw (lineWidth rw pre 0) '\t' = 4 - lineWidth rw pre 0 % 4 := by
    unfold runeCells; simp
  have hfc : fillCount (4 - lineWidth rw pre 0 % 4) = (4 - lineWidth rw pre 0 % 4 - 1).toNat := by
    unfold fillCount
    split_ifs <;> omega
  refine ⟨by rw [hinit, hpre], ?_, ?_, ?_⟩
  · rw [hstep, hinit, hpre]
    simp only [hcells]
    have := fillCount_of_pos (4 - lineWidth rw pre 0 % 4) htb.1
    omega
  · rw [hstep, hinit, hpre]
    simp only [hcells, if_true, cellWrites_append, drawnCells, htab, List.range_zero,
      List.map_nil, cellWrites, List.nil_append]
    rw [cellWrites_fillerCells_blank rw cfg i _ _ _ hsp, hfc]
    have hcur : cellWrites (if i.cursor.X = (pre.length : Int)
        then [Event.ShowCursor (RuneCountInString i.Msg + lineWidth rw pre 0) i.Y] else []) = [] := by
      split_ifs <;> rfl
    rw [hcur, List.append_nil]
  · exact displayBuffer_at rw cfg i pre '\t' post hline hfirst
      (Or.inl (by rw [hinit, hpre]; simp only; omega))

/-- C7 (amended): with rune widths of at most 2, every cell `displayBuffer` writes
lies at a column from the label's rune count up to, but excluding,
`max(Width, rune count + 1) + 3`: no rune other than the first is started at a
column `>= Width`, but the cells of the rune that crosses the boundary are
written. When the line has no zero-width runes and fits the view, every cell lies
at a column `< Width`. -/
theorem displayBuffer_columns (rw : Char → Nat) (cfg : Config) (i : InfoWindow)
    (hrw : ∀ r, rw r ≤ 2) :
    colsWithin (displayBuffer rw cfg i) (RuneCountInString i.Msg)
      (max i.Width (RuneCountInString i.Msg + 1) + 3) ∧
    ((∀ r ∈ i.line, r = '\t' ∨ 0 < rw r) →
      RuneCountInString i.Msg + lineWidth rw i.line 0 ≤ i.Width →
      colsWithin (displayBuffer rw cfg i) (RuneCountInString i.Msg) i.Width) := by
  have hsl := slice_loop_cols rw i.line 0
  have hn : (displayBuffer.init rw i).nColsBeforeStart ≤ 0 := by
    unfold displayBuffer.init SliceVisualEnd
    simp only [hsl.1, le_refl]
  have htw : 0 ≤ (displayBuffer.init rw i).totalwidth := by
    unfold displayBuffer.init SliceVisualEnd
    simp only [hsl.1, sub_zero]
    exact hsl.2
  have hv : (displayBuffer.init rw i).vlocX = RuneCountInString i.Msg := rfl
  have hcur : ∀ (b : Prop) [Decidable b] (x y a c : Int),
      colsWithin (if b then [Event.ShowCursor x y] else []) a c := by
    intro b _ x y a c x1 y1 r s hm
    split_ifs at hm <;> simp at hm
  constructor
  · have hcols := loop_cols rw cfg i (SliceVisualEnd rw i.line 0 displayBuffer.tabsize).1
      (displayBuffer.init rw i) hn htw
    have hb := loop_vloc_bound rw cfg i (SliceVisualEnd rw i.line 0 displayBuffer.tabsize).1
      (displayBuffer.init rw i) hn htw hrw
    rw [hv] at hcols hb
    unfold displayBuffer
    apply colsWithin_append
    · refine colsWithin_mono _ _ _ _ _ hcols (le_refl _) (le_trans hb ?_)
      apply max_le
      · have := le_max_left i.Width (RuneCountInString i.Msg + 1); omega
      · have := le_max_right i.Width (RuneCountInString i.Msg + 1); omega
    · exact hcur _ _ _ _ _
  · intro hnz hfit
    exact colsWithin_mono _ _ _ _ _ (displayBuffer_cols_of_fits rw cfg i hnz hfit) (le_refl _) hfit

/-- Witness for C6 (amended): label `ab`, line `x⇥y`: the tab starts at column 1 of
the buffer content and is 3 cells wide. -/
theorem displayBuffer_tab_witness :
    (displayBuffer.step sampleWidth plainConfig (promptWindow "ab".toList "x\ty".toList 0 10)
        (displayBuffer.loop sampleWidth plainConfig (promptWindow "ab".toList "x\ty".toList 0 10)
          ['x'] (displayBuffer.init sampleWidth
            (promptWindow "ab".toList "x\ty".toList 0 10))).1 '\t').1.vlocX =
      (displayBuffer.loop sampleWidth plainConfig (promptWindow "ab".toList "x\ty".toList 0 10)
          ['x'] (displayBuffer.init sampleWidth
            (promptWindow "ab".toList "x\ty".toList 0 10))).1.vlocX +
        (4 - lineWidth sampleWidth ['x'] 0 % 4) :=
  (displayBuffer_tab sampleWidth plainConfig (promptWindow "ab".toList "x\ty".toList 0 10)
    ['x'] ['y'] (by decide) (by decide) (by decide) (by decide) (by decide)).2.1

/-- C6 (as stated) fails: with the label `ab` the tab of the line `⇥` starts at
terminal column 2, yet the running column advances by 4, not by `4 - 2 mod 4 = 2`,
and three cells (columns 3, 4, 5) are written. -/
theorem displayBuffer_tab_counterexample :
    (displayBuffer.init sampleWidth (promptWindow "ab".toList "\t".toList 0 10)).vlocX = 2 ∧
    RuneCountInString "ab".toList + lineWidth sampleWidth "\t".toList 0 ≤
      (promptWindow "ab".toList "\t".toList 0 10).Width ∧
    ¬ ((displayBuffer.step sampleWidth plainConfig (promptWindow "ab".toList "\t".toList 0 10)
          (displayBuffer.init sampleWidth (promptWindow "ab".toList "\t".toList 0 10))
          '\t').1.vlocX = 2 + (4 - 2 % 4)) ∧
    cellWrites (displayBuffer sampleWidth plainConfig
        (promptWindow "ab".toList "\t".toList 0 10)) =
      [(3, 10, ' ', defStyle plainConfig), (4, 10, ' ', defStyle plainConfig),
       (5, 10, ' ', defStyle plainConfig)] := by
  decide

/-- Witness for C7 (amended): line `⇥` in a view of width 2. -/
theorem displayBuffer_columns_witness :
    colsWithin (displayBuffer sampleWidth plainConfig (promptWindow [] "\t".toList 1 2))
      (RuneCountInString []) (max 2 (RuneCountInString [] + 1) + 3) :=
  (displayBuffer_columns sampleWidth plainConfig (promptWindow [] "\t".toList 1 2)
    (fun r => by unfold sampleWidth; split_ifs <;> omega)).1

/-- C7 (as stated) fails: in a view of width 2 the tab of the line `⇥` is written
up to column 3, and behind the label `abc` the rune `x` is written at column 3. -/
theorem displayBuffer_columns_counterexample :
    ¬ (∀ w ∈ cellWrites (displayBuffer sampleWidth plainConfig
          (promptWindow [] "\t".toList 1 2)),
        w.1 < (promptWindow [] "\t".toList 1 2).Width) ∧
    ¬ (∀ w ∈ cellWrites (displayBuffer sampleWidth plainConfig
          (promptWindow "abc".toList "x".toList 1 2)),
        w.1 < (promptWindow "abc".toList "x".toList 1 2).Width) := by
  decide

/-- C5 (the code at a failing input): behind the label `世`, which is painted at
column 0 and is 2 cells wide, the rune at position 0 of the line `a` is written at
column 1, not at column 0 + 2; column 2 keeps the blank of `Clear`. -/
theorem Display_wide_label_overlap :
    StringWidth sampleWidth "世".toList = 2 ∧
    (Display sampleWidth plainConfig (promptWindow "世".toList "a".toList 1 10)).map
        (fun r => (cellAt r.2 0 10, cellAt r.2 1 10, cellAt r.2 2 10)) =
      some (some ('世', defStyle plainConfig), some ('a', defStyle plainConfig),
        some (' ', defStyle plainConfig)) := by
  decide

/-- C8 (the code at a failing input): for the line `世` (a rune of width 2) the two
cells of `draw` go to the same column 0, the rune first and a blank over it, so
column 0 ends up holding a blank; column 1 holds the marker `@`. -/
theorem displayBuffer_wide_rune_overwritten :
    sampleWidth '世' = 2 ∧
    displayBuffer sampleWidth plainConfig (promptWindow [] "世".toList 1 10) =
      [Event.SetContent 0 10 '世' (defStyle plainConfig),
       Event.SetContent 0 10 ' ' (defStyle plainConfig),
       Event.SetContent 1 10 '@' (defStyle plainConfig),
       Event.ShowCursor 2 10] ∧
    cellAt (displayBuffer sampleWidth plainConfig (promptWindow [] "世".toList 1 10)) 0 10 =
      some (' ', defStyle plainConfig) ∧
    cellAt (displayBuffer sampleWidth plainConfig (promptWindow [] "世".toList 1 10)) 1 10 =
      some ('@', defStyle plainConfig) := by
  decide

/-! ## Scroll adjustment, continued -/

/-- When the current index is not an index of the list from `j` on, the loop leaves
the offset alone. -/
theorem scrollLoop_out_of_range (cur width s : Int) (l : List (List Char)) (j x h : Int)
    (hout : cur < j ∨ j + l.length ≤ cur) :
    scrollLoop cur width s l j x h = h := by
  induction l generalizing j x with
  | nil => rfl
  | cons n rest ih =>
    have hne : ¬ j = cur := by
      simp only [List.length_cons, Nat.cast_add, Nat.cast_one] at hout
      omega
    unfold scrollLoop
    simp only [hne, if_false]
    apply ih
    simp only [List.length_cons, Nat.cast_add, Nat.cast_one] at hout
    omega

/-- The new offset as a function of the old one: with `x` the rune column of the
current candidate and `c` its rune count when the index is valid. -/
theorem scrollToSuggestion_hscroll (rw : Char → Nat) (i : InfoWindow) :
    (¬ (0 ≤ i.CurSuggestion ∧ i.CurSuggestion < i.Suggestions.length) ∧
      (scrollToSuggestion rw i).hscroll =
        if totalSize rw i - i.Width ≤ 0 then 0 else i.hscroll) ∨
    ∃ k : Nat, k < i.Suggestions.length ∧ i.CurSuggestion = k ∧
      (scrollToSuggestion rw i).hscroll =
        if totalSize rw i - i.Width ≤ 0 then 0
        else
          (let x := ((i.Suggestions.take k).map (fun m => RuneCountInString m + 1)).sum
           let c := RuneCountInString (i.Suggestions.getD k [])
           if x + c ≥ i.hscroll + i.Width then Clamp (x + c + 1 - i.Width) 0 (totalSize rw i - i.Width)
           else if x < i.hscroll then Clamp (x - 1) 0 (totalSize rw i - i.Width)
           else i.hscroll) := by
  by_cases hv : 0 ≤ i.CurSuggestion ∧ i.CurSuggestion < i.Suggestions.length
  · right
    refine ⟨i.CurSuggestion.toNat, by omega, by omega, ?_⟩
    have hk : i.CurSuggestion.toNat < i.Suggestions.length := by omega
    have hsplit := split_at i.Suggestions i.CurSuggestion.toNat hk
    have hlen : (i.Suggestions.take i.CurSuggestion.toNat).length = i.CurSuggestion.toNat := by
      rw [List.length_take]; omega
    have hloop := scrollLoop_at i.CurSuggestion i.Width (totalSize rw i)
      (i.Suggestions.take i.CurSuggestion.toNat) (i.Suggestions.getD i.CurSuggestion.toNat [])
      (i.Suggestions.drop (i.CurSuggestion.toNat + 1)) 0 0 i.hscroll (by rw [hlen]; omega)
    rw [← hsplit] at hloop
    unfold scrollToSuggestion
    simp only [hloop, zero_add]
  · left
    refine ⟨hv, ?_⟩
    unfold scrollToSuggestion
    simp only
    rw [scrollLoop_out_of_range _ _ _ _ _ _ _ (by omega)]

theorem scrollToSuggestion_fields (rw : Char → Nat) (i : InfoWindow) :
    (scrollToSuggestion rw i).Suggestions = i.Suggestions ∧
      (scrollToSuggestion rw i).CurSuggestion = i.CurSuggestion ∧
      (scrollToSuggestion rw i).Width = i.Width ∧
      (scrollToSuggestion rw i).Y = i.Y ∧
      totalSize rw (scrollToSuggestion rw i) = totalSize rw i :=
  ⟨rfl, rfl, rfl, rfl, rfl⟩

theorem sum_runes_nonneg (l : List (List Char)) :
    0 ≤ (l.map (fun m => RuneCountInString m + 1)).sum := by
  apply List.sum_nonneg
  intro y hy
  simp only [List.mem_map] at hy
  obtain ⟨a, _, rfl⟩ := hy
  unfold RuneCountInString
  omega

/-- The offset stays non-negative under the scroll adjustment. -/
theorem scroll_hscroll_nonneg (rw : Char → Nat) (i : InfoWindow) (h0 : 0 ≤ i.hscroll) :
    0 ≤ (scrollToSuggestion rw i).hscroll := by
  unfold scrollToSuggestion
  simp only
  by_cases hs : totalSize rw i - i.Width ≤ 0
  · simp only [hs, if_true, le_refl]
  · simp only [hs, if_false]
    rcases scrollLoop_cases i.CurSuggestion i.Width (totalSize rw i) i.Suggestions 0 0 i.hscroll
      with h | ⟨v, h⟩
    · rw [h]; exact h0
    · rw [h]; exact (Clamp_bounds v _ (by omega)).1

/-- C18: the scroll adjustment preserves non-negativity of the offset, for every
list, every current index (valid or not) and every width. -/
theorem scrollToSuggestion_nonneg (rw : Char → Nat) (i : InfoWindow) (h0 : 0 ≤ i.hscroll) :
    0 ≤ (scrollToSuggestion rw i).hscroll :=
  scroll_hscroll_nonneg rw i h0

/-- Witness for C18: an index that is not valid, a view wider than the content. -/
theorem scrollToSuggestion_nonneg_witness :
    0 ≤ (scrollToSuggestion sampleWidth
      (suggWindow ["abc".toList, "de".toList] 7 40 5)).hscroll :=
  scrollToSuggestion_nonneg sampleWidth (suggWindow ["abc".toList, "de".toList] 7 40 5)
    (by decide)

/-- C19 (amended): when the content fits the view, or the current candidate together
with one column of margin on each side fits the view (rune count + 2 <= Width),
a second scroll adjustment with list, index and width unchanged leaves the offset
as the first one set it. -/
theorem scrollToSuggestion_idempotent (rw : Char → Nat) (i : InfoWindow)
    (hroom : totalSize rw i ≤ i.Width ∨
      ∀ k : Nat, k < i.Suggestions.length → i.CurSuggestion = k →
        RuneCountInString (i.Suggestions.getD k []) + 2 ≤ i.Width) :
    (scrollToSuggestion rw (scrollToSuggestion rw i)).hscroll =
      (scrollToSuggestion rw i).hscroll := by
  obtain ⟨hS, hC, hW, _, hT⟩ := scrollToSuggestion_fields rw i
  have h2 := scrollToSuggestion_hscroll rw (scrollToSuggestion rw i)
  rw [hS, hC, hW, hT] at h2
  rcases scrollToSuggestion_hscroll rw i with ⟨hinv, h1⟩ | ⟨k, hk, hcur, h1⟩
  · rcases h2 with ⟨_, h2⟩ | ⟨k, hk, hcur, _⟩
    · rw [h2, h1]
      split_ifs <;> rfl
    · exact absurd ⟨by omega, by omega⟩ hinv
  · rcases h2 with ⟨hinv, _⟩ | ⟨k2, hk2, hcur2, h2⟩
    · exact absurd ⟨by omega, by omega⟩ hinv
    · have hkk : k2 = k := by omega
      subst hkk
      have hx := sum_runes_nonneg (i.Suggestions.take k2)
      have hc : 0 ≤ RuneCountInString (i.Suggestions.getD k2 []) := by
        unfold RuneCountInString; omega
      have hcw : totalSize rw i ≤ i.Width ∨
          RuneCountInString (i.Suggestions.getD k2 []) + 2 ≤ i.Width := by
        rcases hroom with h | h
        · exact Or.inl h
        · exact Or.inr (h k2 hk hcur)
      clear hroom
      rw [h2, h1]
      simp only
      generalize ((i.Suggestions.take k2).map (fun m => RuneCountInString m + 1)).sum = x at *
      generalize RuneCountInString (i.Suggestions.getD k2 []) = c at *
      generalize totalSize rw i = s at *
      by_cases hs : s - i.Width ≤ 0
      · simp only [hs, if_true]
      · simp only [hs, if_false]
        unfold Clamp
        split_ifs <;> omega

/-- Witness for C19 (amended): the list `abc de fghij`, candidate 2, width 10. -/
theorem scrollToSuggestion_idempotent_witness :
    (scrollToSuggestion sampleWidth (scrollToSuggestion sampleWidth
        (suggWindow ["abc".toList, "de".toList, "fghij".toList] 2 10 0))).hscroll =
      (scrollToSuggestion sampleWidth
        (suggWindow ["abc".toList, "de".toList, "fghij".toList] 2 10 0)).hscroll :=
  scrollToSuggestion_idempotent sampleWidth
    (suggWindow ["abc".toList, "de".toList, "fghij".toList] 2 10 0)
    (Or.inr (by decide))

/-- C19 (as stated) fails: for the list `abcd e`, candidate 0 and width 3 the first
call sets the offset to 2 and the second call moves it back to 0; for the list
`a bc d`, candidate 1, width 3 and prior offset 4 the first call yields 1 and the
second 2. -/
theorem scrollToSuggestion_idempotent_counterexample :
    ¬ ((scrollToSuggestion sampleWidth (scrollToSuggestion sampleWidth
          (suggWindow ["abcd".toList, "e".toList] 0 3 0))).hscroll =
        (scrollToSuggestion sampleWidth
          (suggWindow ["abcd".toList, "e".toList] 0 3 0)).hscroll) ∧
    ¬ ((scrollToSuggestion sampleWidth (scrollToSuggestion sampleWidth
          (suggWindow ["a".toList, "bc".toList, "d".toList] 1 3 4))).hscroll =
        (scrollToSuggestion sampleWidth
          (suggWindow ["a".toList, "bc".toList, "d".toList] 1 3 4)).hscroll) := by
  decide

/-! ## The frame and the suggestion strip, continued -/

theorem suggestions_eq_strip (rw : Char → Nat) (cfg : Config) (i : InfoWindow) :
    Display.suggestions rw cfg i =
      if i.HasSuggestions && decide (i.Suggestions.length > 1) then
        (Display.strip rw cfg (scrollToSuggestion rw i)).map
          (fun es => (scrollToSuggestion rw i, es))
      else some (i, []) := by
  unfold Display.suggestions Display.strip
  split_ifs
  · simp only
    cases Display.pad rw (scrollToSuggestion rw i)
      (Display.suggestionRow cfg (scrollToSuggestion rw i)) (Display.statusLineStyle cfg)
      ((scrollToSuggestion rw i).Width - (Display.drawSuggestions rw (scrollToSuggestion rw i)
        (Display.suggestionRow cfg (scrollToSuggestion rw i))
        (Display.statusLineStyle cfg) (scrollToSuggestion rw i).Suggestions 0
        (-(scrollToSuggestion rw i).hscroll)).1).toNat
      (Display.drawSuggestions rw (scrollToSuggestion rw i)
        (Display.suggestionRow cfg (scrollToSuggestion rw i))
        (Display.statusLineStyle cfg) (scrollToSuggestion rw i).Suggestions 0
        (-(scrollToSuggestion rw i).hscroll)).1 <;> rfl
  · rfl

theorem stripCell_mono (i : InfoWindow) (y : Int) (P : Char → Prop) (Q : Style → Prop)
    (lo hi lo1 hi1 : Int) (e : Event) (h : stripCell i y P Q lo hi e) (hlo : lo1 ≤ lo)
    (hhi : hi ≤ hi1) : stripCell i y P Q lo1 hi1 e := by
  obtain ⟨col, c, s, he, h1, h2, h3, h4, h5, h6⟩ := h
  exact ⟨col, c, s, he, by omega, by omega, h3, h4, h5, h6⟩

theorem StripSpec_nil (i : InfoWindow) (y : Int) (P : Char → Prop) (Q : Style → Prop)
    (x : Int) : StripSpec i y P Q x x [] :=
  ⟨le_refl _, fun e he => by simp at he, fun col h1 h2 _ _ => by omega⟩

theorem StripSpec_append (i : InfoWindow) (y : Int) (P : Char → Prop) (Q : Style → Prop)
    (x x1 x2 : Int) (e1 e2 : List Event) (h1 : StripSpec i y P Q x x1 e1)
    (h2 : StripSpec i y P Q x1 x2 e2) : StripSpec i y P Q x x2 (e1 ++ e2) := by
  obtain ⟨ha, hb, hc⟩ := h1
  obtain ⟨ha2, hb2, hc2⟩ := h2
  refine ⟨by omega, ?_, ?_⟩
  · intro e he
    rcases List.mem_append.1 he with h | h
    · exact stripCell_mono _ _ _ _ _ _ _ _ _ (hb e h) (le_refl _) ha2
    · exact stripCell_mono _ _ _ _ _ _ _ _ _ (hb2 e h) ha (le_refl _)
  · intro col h1 h2 h3 h4
    by_cases hlt : col < x1
    · obtain ⟨c, s, hm⟩ := hc col h1 hlt h3 h4
      exact ⟨c, s, List.mem_append_left _ hm⟩
    · obtain ⟨c, s, hm⟩ := hc2 col (by omega) h2 h3 h4
      exact ⟨c, s, List.mem_append_right _ hm⟩

/-- The cell loop of `draw`: in a view of width at least 1 every call is a
`stripCell`, every column passed inside the view is written, and the running
column advances when there is a cell to draw. -/
theorem drawCells_spec (i : InfoWindow) (y : Int) (P : Char → Prop) (Q : Style → Prop)
    (r : Char) (s : Style) (hW : 1 ≤ i.Width) (hr : P r) (hsp : P ' ') (hs : Q s)
    (js : List Nat) (x : Int) :
    StripSpec i y P Q x (Display.drawCells i y false r s js x).1
        (Display.drawCells i y false r s js x).2 ∧
      (js ≠ [] → x + 1 ≤ (Display.drawCells i y false r s js x).1) := by
  induction js generalizing x with
  | nil => exact ⟨StripSpec_nil _ _ _ _ _, fun h => absurd rfl h⟩
  | cons j js ih =>
    obtain ⟨⟨ih1, ih2, ih3⟩, _⟩ := ih (x + 1)
    have hc : P (if j > 0 then ' ' else r) := by split_ifs <;> assumption
    unfold Display.drawCells
    by_cases h1 : x = i.Width - 1
    · simp only [h1, Bool.not_false, and_true, if_true]
      refine ⟨⟨by omega, ?_, ?_⟩, fun _ => by omega⟩
      · intro e he
        simp only [List.mem_singleton] at he
        exact ⟨i.Width - 1, '>', s, he, by omega, by omega, by omega, by omega, hs,
          by simp⟩
      · intro col h2 h3 _ _
        have : col = i.Width - 1 := by omega
        exact ⟨'>', s, by simp [this]⟩
    · simp only [h1, false_and, if_false]
      by_cases h2 : x = 0 ∧ i.hscroll > 0
      · rw [if_pos h2]
        refine ⟨⟨by simp only; omega, ?_, ?_⟩, fun _ => by simp only; omega⟩
        · intro e he
          rcases List.mem_cons.1 he with h | h
          · exact ⟨0, '<', s, h, by omega, by simp only; omega, by omega, by omega, hs, by
              rw [if_neg (by omega), if_pos ⟨rfl, h2.2⟩]⟩
          · exact stripCell_mono _ _ _ _ _ _ _ _ _ (ih2 e h) (by omega) (le_refl _)
        · intro col h3 h4 h5 h6
          by_cases hx : col = x
          · exact ⟨'<', s, by rw [hx, h2.1]; exact List.mem_cons_self _ _⟩
          · obtain ⟨c, s1, hm⟩ := ih3 col (by omega) h4 h5 h6
            exact ⟨c, s1, List.mem_cons_of_mem _ hm⟩
      · rw [if_neg h2]
        by_cases h3 : x ≥ 0 ∧ x < i.Width
        · rw [if_pos h3]
          refine ⟨⟨by simp only; omega, ?_, ?_⟩, fun _ => by simp only; omega⟩
          · intro e he
            rcases List.mem_cons.1 he with h | h
            · exact ⟨x, _, s, h, by omega, by simp only; omega, by omega, by omega, hs, by
                rw [if_neg h1, if_neg h2]; exact hc⟩
            · exact stripCell_mono _ _ _ _ _ _ _ _ _ (ih2 e h) (by omega) (le_refl _)
          · intro col h4 h5 h6 h7
            by_cases hx : col = x
            · exact ⟨_, s, by rw [hx]; exact List.mem_cons_self _ _⟩
            · obtain ⟨c, s1, hm⟩ := ih3 col (by omega) h5 h6 h7
              exact ⟨c, s1, List.mem_cons_of_mem _ hm⟩
        · rw [if_neg h3]
          refine ⟨⟨by omega, ?_, ?_⟩, fun _ => by omega⟩
          · intro e he
            exact stripCell_mono _ _ _ _ _ _ _ _ _ (ih2 e he) (by omega) (le_refl _)
          · intro col h4 h5 h6 h7
            exact ih3 col (by omega) h5 h6 h7

theorem draw_spec (rw : Char → Nat) (i : InfoWindow) (y : Int) (P : Char → Prop)
    (Q : Style → Prop) (r : Char) (s : Style) (hW : 1 ≤ i.Width) (hr : P r) (hsp : P ' ')
    (hs : Q s) (x : Int) :
    StripSpec i y P Q x (Display.draw rw i y x r s).1 (Display.draw rw i y x r s).2 ∧
      (0 < rw r → x + 1 ≤ (Display.draw rw i y x r s).1) := by
  unfold Display.draw
  have h := drawCells_spec i y P Q r s hW hr hsp hs (List.range (rw r)) x
  refine ⟨h.1, fun hpos => h.2 ?_⟩
  intro hnil
  have := congrArg List.length hnil
  simp only [List.length_range, List.length_nil] at this
  omega

theorem drawRunes_spec (rw : Char → Nat) (i : InfoWindow) (y : Int) (P : Char → Prop)
    (Q : Style → Prop) (s : Style) (hW : 1 ≤ i.Width) (hsp : P ' ') (hs : Q s)
    (runes : List Char) (hr : ∀ r ∈ runes, P r) (x : Int) :
    StripSpec i y P Q x (Display.drawRunes rw i y s runes x).1
      (Display.drawRunes rw i y s runes x).2 := by
  induction runes generalizing x with
  | nil => exact StripSpec_nil _ _ _ _ _
  | cons r rest ih =>
    unfold Display.drawRunes
    exact StripSpec_append _ _ _ _ _ _ _ _ _
      (draw_spec rw i y P Q r s hW (hr r (List.mem_cons_self _ _)) hsp hs x).1
      (ih (fun c hc => hr c (List.mem_cons_of_mem _ hc)) _)

theorem drawSuggestions_spec (rw : Char → Nat) (i : InfoWindow) (y : Int) (P : Char → Prop)
    (Q : Style → Prop) (base : Style) (hW : 1 ≤ i.Width) (hsp : P ' ') (hb : Q base)
    (hsel : Q (base.Reverse true)) (l : List (List Char)) (hr : ∀ n ∈ l, ∀ r ∈ n, P r)
    (j x : Int) :
    StripSpec i y P Q x (Display.drawSuggestions rw i y base l j x).1
      (Display.drawSuggestions rw i y base l j x).2 := by
  induction l generalizing j x with
  | nil => exact StripSpec_nil _ _ _ _ _
  | cons n rest ih =>
    unfold Display.drawSuggestions
    have hst : Q (if i.CurSuggestion = j then base.Reverse true else base) := by
      split_ifs <;> assumption
    exact StripSpec_append _ _ _ _ _ _ _ _ _
      (StripSpec_append _ _ _ _ _ _ _ _ _
        (drawRunes_spec rw i y P Q _ hW hsp hst n (hr n (List.mem_cons_self _ _)) x)
        (draw_spec rw i y P Q ' ' base hW hsp hsp hb _).1)
      (ih (fun m hm => hr m (List.mem_cons_of_mem _ hm)) _ _)

/-- The padding loop ends when a blank has a width: it then has painted up to the
end of the view. -/
theorem pad_spec (rw : Char → Nat) (i : InfoWindow) (y : Int) (P : Char → Prop)
    (Q : Style → Prop) (base : Style) (hW : 1 ≤ i.Width) (hsp : P ' ') (hb : Q base)
    (hrw : 0 < rw ' ') (fuel : Nat) (x : Int) (hfuel : (i.Width - x).toNat ≤ fuel) :
    ∃ t x1, Display.pad rw i y base fuel x = some t ∧ StripSpec i y P Q x x1 t ∧
      i.Width ≤ x1 := by
  induction fuel generalizing x with
  | zero =>
    have hx : ¬ x < i.Width := by omega
    exact ⟨[], x, by simp [Display.pad, hx], StripSpec_nil _ _ _ _ _, by omega⟩
  | succ fuel ih =>
    by_cases hx : x < i.Width
    · have hd := draw_spec rw i y P Q ' ' base hW hsp hsp hb x
      have hprog := hd.2 hrw
      obtain ⟨t, x1, ht, hspec, hle⟩ := ih (Display.draw rw i y x ' ' base).1 (by omega)
      refine ⟨(Display.draw rw i y x ' ' base).2 ++ t, x1, ?_,
        StripSpec_append _ _ _ _ _ _ _ _ _ hd.1 hspec, hle⟩
      unfold Display.pad
      simp only [hx, if_true, ht]
    · exact ⟨[], x, by simp [Display.pad, hx], StripSpec_nil _ _ _ _ _, by omega⟩

/-- The strip painter in a view of width at least 1, with a blank of width at least
1: it ends, every call is a `stripCell` in the status-line style or its reverse,
and every column of the view from `-hscroll` on is written. -/
theorem strip_spec (rw : Char → Nat) (cfg : Config) (i : InfoWindow) (P : Char → Prop)
    (Q : Style → Prop) (hW : 1 ≤ i.Width) (hrw : 0 < rw ' ') (hsp : P ' ')
    (hr : ∀ n ∈ i.Suggestions, ∀ r ∈ n, P r) (hb : Q (Display.statusLineStyle cfg))
    (hsel : Q ((Display.statusLineStyle cfg).Reverse true)) :
    ∃ es x1, Display.strip rw cfg i = some es ∧
      StripSpec i (Display.suggestionRow cfg i) P Q (-i.hscroll) x1 es ∧ i.Width ≤ x1 := by
  have hd := drawSuggestions_spec rw i (Display.suggestionRow cfg i) P Q
    (Display.statusLineStyle cfg) hW hsp hb hsel i.Suggestions hr 0 (-i.hscroll)
  obtain ⟨t, x1, ht, hspec, hle⟩ := pad_spec rw i (Display.suggestionRow cfg i) P Q
    (Display.statusLineStyle cfg) hW hsp hb hrw
    (i.Width - (Display.drawSuggestions rw i (Display.suggestionRow cfg i)
      (Display.statusLineStyle cfg) i.Suggestions 0 (-i.hscroll)).1).toNat
    (Display.drawSuggestions rw i (Display.suggestionRow cfg i)
      (Display.statusLineStyle cfg) i.Suggestions 0 (-i.hscroll)).1 (le_refl _)
  refine ⟨_, x1, ?_, StripSpec_append _ _ _ _ _ _ _ _ _ hd hspec, hle⟩
  unfold Display.strip
  simp only [ht]

/-- C11 (the code at a failing input): with the label `世`, painted at column 0 and 2
cells wide, an active prompt with an empty line and the cursor at position 0, the
cursor is shown at column 1, the label's rune count, not at column 2. -/
theorem Display_wide_label_cursor :
    StringWidth sampleWidth "世".toList = 2 ∧
    (Display sampleWidth plainConfig (promptWindow "世".toList [] 0 10)).map
        (fun r => (cellAt r.2 0 10, cursorCalls r.2)) =
      some (some ('世', defStyle plainConfig), [(1, 10)]) := by
  decide

/-- C13 (the code at a failing input): with "infobar" on and neither prompt, message
nor error active, `Display` returns after clearing the message row: for the active
list `a b` in a view of width 5 nothing is written on the suggestion row 9, while
with "infobar" off the strip is painted there. -/
theorem Display_infobar_skips_strip :
    (suggWindow ["a".toList, "b".toList] 0 5 0).HasSuggestions = true ∧
    (suggWindow ["a".toList, "b".toList] 0 5 0).Suggestions.length = 2 ∧
    (Display sampleWidth infobarConfig (suggWindow ["a".toList, "b".toList] 0 5 0)).map
        (fun r => cellWrites r.2) =
      some [(0, 10, ' ', defStyle infobarConfig), (1, 10, ' ', defStyle infobarConfig),
        (2, 10, ' ', defStyle infobarConfig), (3, 10, ' ', defStyle infobarConfig),
        (4, 10, ' ', defStyle infobarConfig)] ∧
    (Display sampleWidth plainConfig (suggWindow ["a".toList, "b".toList] 0 5 0)).map
        (fun r => cellWrites r.2) =
      some [(0, 9, 'a', (Display.statusLineStyle plainConfig).Reverse true),
        (1, 9, ' ', Display.statusLineStyle plainConfig),
        (2, 9, 'b', Display.statusLineStyle plainConfig),
        (3, 9, ' ', Display.statusLineStyle plainConfig),
        (4, 9, '>', Display.statusLineStyle plainConfig)] := by
  decide

/-- C20 (the code at a failing input): in the line `世x` the filler cell `@` of the
wide rune at position 0 is tested against position 1. With the selection [0, 1)
the rune's own cells are highlighted and its filler is not; with the selection
[1, 2) the filler is highlighted although the rune is not selected. -/
theorem displayBuffer_filler_style :
    displayBuffer.selected (selectionWindow [] "世x".toList 0 1 10).cursor 0 = true ∧
    cellWrites (displayBuffer sampleWidth plainConfig
        (selectionWindow [] "世x".toList 0 1 10)) =
      [(0, 10, '世', selectionStyle plainConfig), (0, 10, ' ', selectionStyle plainConfig),
       (1, 10, '@', defStyle plainConfig), (2, 10, 'x', defStyle plainConfig)] ∧
    displayBuffer.selected (selectionWindow [] "世x".toList 1 2 10).cursor 0 = false ∧
    cellWrites (displayBuffer sampleWidth plainConfig
        (selectionWindow [] "世x".toList 1 2 10)) =
      [(0, 10, '世', defStyle plainConfig), (0, 10, ' ', defStyle plainConfig),
       (1, 10, '@', selectionStyle plainConfig), (2, 10, 'x', selectionStyle plainConfig)] ∧
    selectionStyle plainConfig ≠ defStyle plainConfig := by
  decide

theorem drawCells_ge (i : InfoWindow) (y : Int) (r : Char) (s : Style) (js : List Nat)
    (x : Int) :
    x ≤ (Display.drawCells i y false r s js x).1 ∧
      (js ≠ [] → x + 1 ≤ (Display.drawCells i y false r s js x).1) := by
  induction js generalizing x with
  | nil => exact ⟨le_refl _, fun h => absurd rfl h⟩
  | cons j js ih =>
    have h := (ih (x + 1)).1
    unfold Display.drawCells
    split_ifs <;> exact ⟨by simp only; omega, fun _ => by simp only; omega⟩

theorem drawCells_styles (i : InfoWindow) (y : Int) (r : Char) (s : Style) (js : List Nat)
    (x : Int) :
    ∀ e ∈ (Display.drawCells i y false r s js x).2, ∃ col c, e = Event.SetContent col y c s := by
  induction js generalizing x with
  | nil => intro e he; simp [Display.drawCells] at he
  | cons j js ih =>
    intro e he
    unfold Display.drawCells at he
    by_cases h1 : x = i.Width - 1
    · simp only [h1, Bool.not_false, and_true, if_true, List.mem_singleton] at he
      exact ⟨_, _, he⟩
    · simp only [h1, false_and, if_false] at he
      by_cases h2 : x = 0 ∧ i.hscroll > 0
      · rw [if_pos h2] at he
        rcases List.mem_cons.1 he with h | h
        · exact ⟨_, _, h⟩
        · exact ih _ e h
      · rw [if_neg h2] at he
        by_cases h3 : x ≥ 0 ∧ x < i.Width
        · rw [if_pos h3] at he
          rcases List.mem_cons.1 he with h | h
          · exact ⟨_, _, h⟩
          · exact ih _ e h
        · rw [if_neg h3] at he
          exact ih _ e he

theorem drawRunes_styles (rw : Char → Nat) (i : InfoWindow) (y : Int) (s : Style)
    (runes : List Char) (x : Int) :
    ∀ e ∈ (Display.drawRunes rw i y s runes x).2, ∃ col c, e = Event.SetContent col y c s := by
  induction runes generalizing x with
  | nil => intro e he; simp [Display.drawRunes] at he
  | cons r rest ih =>
    intro e he
    unfold Display.drawRunes at he
    rcases List.mem_append.1 he with h | h
    · exact drawCells_styles i y r s _ x e h
    · exact ih _ e h

theorem drawSuggestions_styles (rw : Char → Nat) (i : InfoWindow) (y : Int) (base : Style)
    (l : List (List Char)) (j x : Int) :
    ∀ e ∈ (Display.drawSuggestions rw i y base l j x).2,
      ∃ col c s, e = Event.SetContent col y c s ∧ (s = base ∨ s = base.Reverse true) := by
  induction l generalizing j x with
  | nil => intro e he; simp [Display.drawSuggestions] at he
  | cons n rest ih =>
    intro e he
    unfold Display.drawSuggestions at he
    simp only [List.mem_append] at he
    rcases he with (h | h) | h
    · obtain ⟨col, c, hc⟩ := drawRunes_styles rw i y _ n x e h
      exact ⟨col, c, _, hc, by split_ifs <;> simp⟩
    · obtain ⟨col, c, hc⟩ := drawCells_styles i y ' ' base _ _ e h
      exact ⟨col, c, base, hc, Or.inl rfl⟩
    · exact ih _ _ e h

/-- The padding loop ends, whatever the width of the view, when a blank has a width;
it writes in the status-line style. -/
theorem pad_some (rw : Char → Nat) (i : InfoWindow) (y : Int) (base : Style)
    (hrw : 0 < rw ' ') (fuel : Nat) (x : Int) (hfuel : (i.Width - x).toNat ≤ fuel) :
    ∃ t, Display.pad rw i y base fuel x = some t ∧
      ∀ e ∈ t, ∃ col c, e = Event.SetContent col y c base := by
  induction fuel generalizing x with
  | zero =>
    have hx : ¬ x < i.Width := by omega
    exact ⟨[], by simp [Display.pad, hx], fun e he => by simp at he⟩
  | succ fuel ih =>
    by_cases hx : x < i.Width
    · have hprog := (drawCells_ge i y ' ' base (List.range (rw ' ')) x).2 (by
        intro hnil
        have := congrArg List.length hnil
        simp only [List.length_range, List.length_nil] at this
        omega)
      obtain ⟨t, ht, hst⟩ := ih (Display.draw rw i y x ' ' base).1 (by
        unfold Display.draw; omega)
      refine ⟨(Display.draw rw i y x ' ' base).2 ++ t, ?_, ?_⟩
      · unfold Display.pad
        simp only [hx, if_true, ht]
      · intro e he
        rcases List.mem_append.1 he with h | h
        · exact drawCells_styles i y ' ' base _ x e h
        · exact hst e h
    · exact ⟨[], by simp [Display.pad, hx], fun e he => by simp at he⟩

/-- The strip painter ends when a blank has a width, and writes every cell on the
suggestion row, in the status-line style or in that style with reverse set. -/
theorem strip_some (rw : Char → Nat) (cfg : Config) (i : InfoWindow) (hrw : 0 < rw ' ') :
    ∃ es, Display.strip rw cfg i = some es ∧
      ∀ e ∈ es, ∃ col c s, e = Event.SetContent col (Display.suggestionRow cfg i) c s ∧
        (s = Display.statusLineStyle cfg ∨ s = (Display.statusLineStyle cfg).Reverse true) := by
  obtain ⟨t, ht, hst⟩ := pad_some rw i (Display.suggestionRow cfg i) (Display.statusLineStyle cfg)
    hrw
    (i.Width - (Display.drawSuggestions rw i (Display.suggestionRow cfg i)
      (Display.statusLineStyle cfg) i.Suggestions 0 (-i.hscroll)).1).toNat
    (Display.drawSuggestions rw i (Display.suggestionRow cfg i)
      (Display.statusLineStyle cfg) i.Suggestions 0 (-i.hscroll)).1 (le_refl _)
  refine ⟨(Display.drawSuggestions rw i (Display.suggestionRow cfg i)
      (Display.statusLineStyle cfg) i.Suggestions 0 (-i.hscroll)).2 ++ t,
    by unfold Display.strip; simp only [ht], ?_⟩
  intro e he
  rcases List.mem_append.1 he with h | h
  · exact drawSuggestions_styles rw i _ _ _ _ _ e h
  · obtain ⟨col, c, hc⟩ := hst e h
    exact ⟨col, c, _, hc, Or.inl rfl⟩

/-- A frame that does not return from its message part ends when a blank has a
width; its calls are those of the message part followed by those of the
suggestion part. -/
theorem Display_some (rw : Char → Nat) (cfg : Config) (i : InfoWindow) (hrw : 0 < rw ' ')
    (hm : (Display.message rw cfg i).2 = false) :
    ∃ i1 es, Display rw cfg i = some (i1, (Display.message rw cfg i).1 ++ es) ∧
      Display.suggestions rw cfg i = some (i1, es) := by
  have hsug : ∃ r, Display.suggestions rw cfg i = some r := by
    rw [suggestions_eq_strip]
    split_ifs
    · obtain ⟨es, hes, _⟩ := strip_some rw cfg (scrollToSuggestion rw i) hrw
      exact ⟨_, by rw [hes]; rfl⟩
    · exact ⟨_, rfl⟩
  obtain ⟨r, hr⟩ := hsug
  refine ⟨r.1, r.2, ?_, hr⟩
  unfold Display
  simp only [hm, hr]
  rfl

/-- The message part of a frame in which the message row is painted. -/
theorem message_painted (rw : Char → Nat) (cfg : Config) (i : InfoWindow)
    (hactive : i.HasPrompt = true ∨
      (cfg.infobar = true ∧ (i.HasMessage = true ∨ i.HasError = true))) :
    Display.message rw cfg i =
      (Clear cfg i ++ (if cfg.keymenu then displayKeyMenu cfg i else []) ++ Clear cfg i ++
        Display.label rw i (if i.HasError then errStyle cfg else defStyle cfg) i.Msg 0 ++
        (if i.HasPrompt then displayBuffer rw cfg i else []), false) := by
  unfold Display.message
  rcases hactive with h | ⟨h1, h | h⟩
  · simp [h]
  · simp [h1, h]
  · simp [h1, h]

theorem label_cells (rw : Char → Nat) (i : InfoWindow) (style : Style) (msg : List Char)
    (x : Int) :
    (cellWrites (Display.label rw i style msg x)).map (fun w => (w.2.1, w.2.2.1, w.2.2.2)) =
      msg.map (fun c => (i.Y, c, style)) := by
  induction msg generalizing x with
  | nil => rfl
  | cons c rest ih =>
    simp only [Display.label, cellWrites, List.map_cons, ih]

theorem mem_Clear (cfg : Config) (i : InfoWindow) (x : Int) (h0 : 0 ≤ x) (h1 : x < i.Width) :
    Event.SetContent x i.Y ' ' (defStyle cfg) ∈ Clear cfg i := by
  unfold Clear
  simp only [List.mem_map, List.mem_range]
  exact ⟨x.toNat, by omega, by rw [Int.toNat_of_nonneg h0]⟩

theorem cellAt_mem (es : List Event) (x y : Int) (c : Char) (s : Style)
    (h : cellAt es x y = some (c, s)) : Event.SetContent x y c s ∈ es := by
  induction es with
  | nil => simp [cellAt] at h
  | cons e rest ih =>
    rw [cellAt_cons] at h
    cases hr : cellAt rest x y with
    | some v =>
      rw [hr] at h
      simp only [Option.some.injEq] at h
      rw [h] at hr
      exact List.mem_cons_of_mem _ (ih hr)
    | none =>
      rw [hr] at h
      cases e with
      | SetContent x1 y1 r st =>
        simp only at h
        split_ifs at h with hxy
        simp only [Option.some.injEq, Prod.mk.injEq] at h
        rw [hxy.1, hxy.2, h.1, h.2]
        exact List.mem_cons_self _ _
      | ShowCursor x1 y1 => simp at h

theorem cellAt_of_mem (es : List Event) (x y : Int) (c : Char) (s : Style)
    (h : Event.SetContent x y c s ∈ es) : ∃ c1 s1, cellAt es x y = some (c1, s1) := by
  induction es with
  | nil => simp at h
  | cons e rest ih =>
    rw [cellAt_cons]
    cases hr : cellAt rest x y with
    | some v => exact ⟨v.1, v.2, rfl⟩
    | none =>
      rcases List.mem_cons.1 h with h1 | h1
      · rw [← h1]
        exact ⟨c, s, by simp⟩
      · obtain ⟨c1, s1, h2⟩ := ih h1
        rw [hr] at h2
        simp at h2

/-- C12 (amended): whenever a prompt is active, or "infobar" is on and a message or
an error is active, `Display` clears the message row `Y` (a blank in `defStyle` at
every column of the view) and then paints the runes of the label `Msg` on it, for
every value of "keymenu". -/
theorem Display_message_row (rw : Char → Nat) (cfg : Config) (i : InfoWindow)
    (hrw : 0 < rw ' ')
    (hactive : i.HasPrompt = true ∨
      (cfg.infobar = true ∧ (i.HasMessage = true ∨ i.HasError = true))) :
    (∃ i1 before after, Display rw cfg i = some (i1, before ++ Clear cfg i ++
        Display.label rw i (if i.HasError then errStyle cfg else defStyle cfg) i.Msg 0 ++
        after)) ∧
    (∀ x : Int, 0 ≤ x → x < i.Width →
      Event.SetContent x i.Y ' ' (defStyle cfg) ∈ Clear cfg i) ∧
    (cellWrites (Display.label rw i (if i.HasError then errStyle cfg else defStyle cfg)
        i.Msg 0)).map (fun w => (w.2.1, w.2.2.1, w.2.2.2)) =
      i.Msg.map (fun c => (i.Y, c, if i.HasError then errStyle cfg else defStyle cfg)) := by
  have hm := message_painted rw cfg i hactive
  obtain ⟨i1, es, hd, _⟩ := Display_some rw cfg i hrw (by rw [hm])
  rw [hm] at hd
  refine ⟨⟨i1, Clear cfg i ++ (if cfg.keymenu then displayKeyMenu cfg i else []),
    (if i.HasPrompt then displayBuffer rw cfg i else []) ++ es, ?_⟩,
    fun x h0 h1 => mem_Clear cfg i x h0 h1, label_cells rw i _ i.Msg 0⟩
  rw [hd]
  simp only [List.append_assoc]

/-- Witness for C12 (amended): the message `hi` with "infobar" on. -/
theorem Display_message_row_witness :
    ∃ i1 before after, Display sampleWidth infobarConfig (messageWindow "hi".toList 4) =
      some (i1, before ++ Clear infobarConfig (messageWindow "hi".toList 4) ++
        Display.label sampleWidth (messageWindow "hi".toList 4)
          (if (messageWindow "hi".toList 4).HasError then errStyle infobarConfig
            else defStyle infobarConfig) (messageWindow "hi".toList 4).Msg 0 ++ after) :=
  (Display_message_row sampleWidth infobarConfig (messageWindow "hi".toList 4) (by decide)
    (Or.inr ⟨rfl, Or.inl rfl⟩)).1

/-- C12 (as stated) fails: with "infobar" off and no prompt, a frame with the active
message `hi` issues no call at all. -/
theorem Display_message_row_counterexample :
    (messageWindow "hi".toList 4).HasMessage = true ∧
    (Display sampleWidth plainConfig (messageWindow "hi".toList 4)).map (fun r => r.2) =
      some [] := by
  decide

/-- C14: when the state is flagged as an error and the message row is painted, the
calls `Display` issues for the label are the runes of `Msg` on row `Y`, every one
in the error style: the theme's "error-message" entry, else black on maroon,
whatever the theme has under "message". -/
theorem Display_error_style (rw : Char → Nat) (cfg : Config) (i : InfoWindow)
    (hrw : 0 < rw ' ') (herr : i.HasError = true)
    (hpaint : i.HasPrompt = true ∨ cfg.infobar = true) :
    (∃ i1 before after, Display rw cfg i =
      some (i1, before ++ Display.label rw i (errStyle cfg) i.Msg 0 ++ after)) ∧
    (cellWrites (Display.label rw i (errStyle cfg) i.Msg 0)).map
        (fun w => (w.2.1, w.2.2.1, w.2.2.2)) =
      i.Msg.map (fun c => (i.Y, c, errStyle cfg)) ∧
    (∀ s, cfg.Colorscheme "error-message" = some s → errStyle cfg = s) ∧
    (cfg.Colorscheme "error-message" = none →
      errStyle cfg = { fg := ColorBlack, bg := ColorMaroon, reverse := cfg.DefStyle.reverse }) := by
  have hm := message_painted rw cfg i (by
    rcases hpaint with h | h
    · exact Or.inl h
    · exact Or.inr ⟨h, Or.inr herr⟩)
  obtain ⟨i1, es, hd, _⟩ := Display_some rw cfg i hrw (by rw [hm])
  rw [hm] at hd
  simp only [herr, if_true] at hd
  refine ⟨⟨i1, Clear cfg i ++ (if cfg.keymenu then displayKeyMenu cfg i else []) ++ Clear cfg i,
    (if i.HasPrompt then displayBuffer rw cfg i else []) ++ es, ?_⟩,
    label_cells rw i _ i.Msg 0, ?_, ?_⟩
  · rw [hd]
    simp only [List.append_assoc]
  · intro s hs
    unfold errStyle
    rw [hs]
  · intro hs
    unfold errStyle
    rw [hs]
    rfl

/-- Witness for C14: an error message under a theme with a "message" entry. -/
theorem Display_error_style_witness :
    (cellWrites (Display.label sampleWidth (errorWindow "Error: file not found".toList 40)
        (errStyle messageThemeConfig) (errorWindow "Error: file not found".toList 40).Msg
        0)).map (fun w => (w.2.1, w.2.2.1, w.2.2.2)) =
      (errorWindow "Error: file not found".toList 40).Msg.map
        (fun c => ((errorWindow "Error: file not found".toList 40).Y, c,
          errStyle messageThemeConfig)) :=
  (Display_error_style sampleWidth messageThemeConfig
    (errorWindow "Error: file not found".toList 40) (by decide) rfl (Or.inr rfl)).2.1

theorem Reverse_of_reverse (s : Style) (h : s.reverse = true) : s.Reverse true = s := by
  cases s
  simp only [Style.Reverse] at h ⊢
  rw [h]

/-- C17: in a view of width at least 1 the strip painter ends (a blank having a
width) and every cell it writes is on the suggestion row at a column of
`[0, Width)`, for every list, current index and scroll offset. -/
theorem strip_columns (rw : Char → Nat) (cfg : Config) (i : InfoWindow)
    (hW : 1 ≤ i.Width) (hrw : 0 < rw ' ') :
    ∃ es, Display.strip rw cfg i = some es ∧
      ∀ e ∈ es, ∃ col c s, e = Event.SetContent col (Display.suggestionRow cfg i) c s ∧
        0 ≤ col ∧ col < i.Width := by
  obtain ⟨es, x1, hes, ⟨_, hcells, _⟩, _⟩ := strip_spec rw cfg i (fun _ => True) (fun _ => True)
    hW hrw trivial (fun _ _ _ _ => trivial) trivial trivial
  refine ⟨es, hes, ?_⟩
  intro e he
  obtain ⟨col, c, s, h, _, _, h0, h1, _, _⟩ := hcells e he
  exact ⟨col, c, s, h, h0, h1⟩

/-- Witness for C17: the list `abcdefgh x` in a view of width 5, scrolled by 4. -/
theorem strip_columns_witness :
    ∃ es, Display.strip sampleWidth plainConfig
        (suggWindow ["abcdefgh".toList, "x".toList] 0 5 4) = some es ∧
      ∀ e ∈ es, ∃ col c s,
        e = Event.SetContent col (Display.suggestionRow plainConfig
          (suggWindow ["abcdefgh".toList, "x".toList] 0 5 4)) c s ∧
        0 ≤ col ∧ col < (suggWindow ["abcdefgh".toList, "x".toList] 0 5 4).Width :=
  strip_columns sampleWidth plainConfig (suggWindow ["abcdefgh".toList, "x".toList] 0 5 4)
    (by decide) (by decide)

/-! ## Selection, cursor and arrows -/

/-- The initial skip removes a prefix of the line: the rest is the line without its
first `m` runes, and the character position returned is `m`. -/
theorem slice_loop_drop (rw : Char → Nat) (b : List Char) (k : Int) :
    ∃ m : Nat, m ≤ b.length ∧
      (SliceVisualEndLoop rw 0 displayBuffer.tabsize b 0 k).1 = b.drop m ∧
      (SliceVisualEndLoop rw 0 displayBuffer.tabsize b 0 k).2.2 = k + m := by
  induction b generalizing k with
  | nil => exact ⟨0, le_refl _, by simp [SliceVisualEndLoop]⟩
  | cons r rest ih =>
    unfold SliceVisualEndLoop
    by_cases ht : r = '\t'
    · subst ht
      simp only [if_true]
      rw [if_pos (by decide)]
      exact ⟨0, Nat.zero_le _, by simp⟩
    · simp only [ht, if_false]
      by_cases hw : (0 : Int) + (rw r : Int) > 0
      · rw [if_pos hw]
        exact ⟨0, Nat.zero_le _, by simp⟩
      · rw [if_neg hw]
        have hz : (0 : Int) + (rw r : Int) = 0 := by omega
        rw [hz]
        obtain ⟨m, hm, h1, h2⟩ := ih (k + 1)
        refine ⟨m + 1, by simp only [List.length_cons]; omega, ?_, ?_⟩
        · rw [h1]; rfl
        · rw [h2]; push_cast; omega

/-- The state in which the loop starts: nothing left to skip, the logical position
and the consumed width at the number of runes skipped. -/
theorem init_general (rw : Char → Nat) (i : InfoWindow) :
    displayBuffer.init rw i =
      { vlocX := RuneCountInString i.Msg,
        blocX := (SliceVisualEnd rw i.line 0 displayBuffer.tabsize).2.2,
        nColsBeforeStart := 0,
        totalwidth := (SliceVisualEnd rw i.line 0 displayBuffer.tabsize).2.2 } ∧
    0 ≤ (SliceVisualEnd rw i.line 0 displayBuffer.tabsize).2.2 := by
  have h := slice_loop_cols rw i.line 0
  have h2 : (SliceVisualEnd rw i.line 0 displayBuffer.tabsize).2.1 = 0 := h.1
  refine ⟨?_, h.2⟩
  unfold displayBuffer.init
  simp only [h2, sub_zero]

/-- The calls of `displayBuffer` around a rune of the painted line (the line after
the initial skip) that the loop reaches. -/
theorem displayBuffer_at_painted (rw : Char → Nat) (cfg : Config) (i : InfoWindow)
    (pre : List Char) (r : Char) (post : List Char)
    (hline : (SliceVisualEnd rw i.line 0 displayBuffer.tabsize).1 = pre ++ r :: post)
    (hreach : (displayBuffer.loop rw cfg i pre (displayBuffer.init rw i)).1.vlocX < i.Width ∨
      pre = []) :
    ∃ after, displayBuffer rw cfg i =
      (displayBuffer.loop rw cfg i pre (displayBuffer.init rw i)).2 ++
        (displayBuffer.step rw cfg i
          (displayBuffer.loop rw cfg i pre (displayBuffer.init rw i)).1 r).2 ++ after := by
  unfold displayBuffer
  simp only
  rw [hline, loop_append rw cfg i pre (r :: post) _ hreach, loop_cons]
  split_ifs with hb hx hx
  · exact ⟨_, by simp only [List.append_assoc]; rfl⟩
  · exact ⟨[], by simp only [List.append_assoc, List.append_nil]⟩
  · exact ⟨_, by simp only [List.append_assoc]; rfl⟩
  · exact ⟨_, by simp only [List.append_assoc, List.append_nil]; rfl⟩

/-- C9 (amended): for every rune of display width at least 1 that the loop reaches in
the painted line, at logical position `p` of line 0, and endpoints `s0`, `s1` in
either order: the cells `draw` writes at the rune's column (its first cell) carry
the selection style when the cursor has a selection and
`min(s0,s1) <= p < max(s0,s1)`, and `defStyle` otherwise; the first cell is written;
and the whole painting is unchanged when the two endpoints are exchanged. -/
theorem displayBuffer_selection (rw : Char → Nat) (cfg : Config) (i : InfoWindow)
    (pre : List Char) (r : Char) (post : List Char) (s0 s1 : Int)
    (hline : (SliceVisualEnd rw i.line 0 displayBuffer.tabsize).1 = pre ++ r :: post)
    (hr : 0 < rw r)
    (hreach : (displayBuffer.loop rw cfg i pre (displayBuffer.init rw i)).1.vlocX < i.Width ∨
      pre = [])
    (h0 : i.cursor.CurSelection0 = ⟨s0, 0⟩) (h1 : i.cursor.CurSelection1 = ⟨s1, 0⟩) :
    (0 ≤ (SliceVisualEnd rw i.line 0 displayBuffer.tabsize).2.2 ∧
      i.line = i.line.take (SliceVisualEnd rw i.line 0 displayBuffer.tabsize).2.2.toNat ++
        (pre ++ r :: post)) ∧
    (∃ after, displayBuffer rw cfg i =
      (displayBuffer.loop rw cfg i pre (displayBuffer.init rw i)).2 ++
        (List.range (rw r)).map (fun j =>
          Event.SetContent (displayBuffer.loop rw cfg i pre (displayBuffer.init rw i)).1.vlocX
            i.Y (if j > 0 then ' ' else r)
            (if i.cursor.HasSelection = true ∧
                min s0 s1 ≤ (SliceVisualEnd rw i.line 0 displayBuffer.tabsize).2.2 + pre.length ∧
                (SliceVisualEnd rw i.line 0 displayBuffer.tabsize).2.2 + pre.length < max s0 s1
              then selectionStyle cfg else defStyle cfg)) ++ after) ∧
    Event.SetContent (displayBuffer.loop rw cfg i pre (displayBuffer.init rw i)).1.vlocX i.Y r
        (if i.cursor.HasSelection = true ∧
            min s0 s1 ≤ (SliceVisualEnd rw i.line 0 displayBuffer.tabsize).2.2 + pre.length ∧
            (SliceVisualEnd rw i.line 0 displayBuffer.tabsize).2.2 + pre.length < max s0 s1
          then selectionStyle cfg else defStyle cfg) ∈ displayBuffer rw cfg i ∧
    displayBuffer rw cfg (swapSelection i) = displayBuffer rw cfg i := by
  obtain ⟨hinit, hb0⟩ := init_general rw i
  have hinv := loop_inv rw cfg i pre (displayBuffer.init rw i) (by rw [hinit])
    (by rw [hinit]; exact hb0)
  have hbloc := loop_blocX rw cfg i pre (displayBuffer.init rw i) (by rw [hinit])
    (by rw [hinit]; exact hb0) hreach
  have hbloc2 : (displayBuffer.loop rw cfg i pre (displayBuffer.init rw i)).1.blocX =
      (SliceVisualEnd rw i.line 0 displayBuffer.tabsize).2.2 + pre.length := by
    rw [hbloc, hinit]
  have hdecomp : ∃ after, displayBuffer rw cfg i =
      (displayBuffer.loop rw cfg i pre (displayBuffer.init rw i)).2 ++
        (List.range (rw r)).map (fun j =>
          Event.SetContent (displayBuffer.loop rw cfg i pre (displayBuffer.init rw i)).1.vlocX
            i.Y (if j > 0 then ' ' else r)
            (if i.cursor.HasSelection = true ∧
                min s0 s1 ≤ (SliceVisualEnd rw i.line 0 displayBuffer.tabsize).2.2 + pre.length ∧
                (SliceVisualEnd rw i.line 0 displayBuffer.tabsize).2.2 + pre.length < max s0 s1
              then selectionStyle cfg else defStyle cfg)) ++ after := by
    obtain ⟨after, hafter⟩ := displayBuffer_at_painted rw cfg i pre r post hline hreach
    rw [step_of_nonpos rw cfg i _ r hinv.1 hinv.2.1] at hafter
    unfold drawnCells at hafter
    rw [drawStyle_eq cfg i.cursor _ s0 s1 _ h0 h1, hbloc2] at hafter
    simp only [List.append_assoc] at hafter
    exact ⟨_, by rw [hafter]; simp only [List.append_assoc]; rfl⟩
  refine ⟨⟨hb0, ?_⟩, hdecomp, ?_, ?_⟩
  · obtain ⟨m, _, hm1, hm2⟩ := slice_loop_drop rw i.line 0
    have h1 : (SliceVisualEnd rw i.line 0 displayBuffer.tabsize).1 = i.line.drop m := hm1
    have h2 : (SliceVisualEnd rw i.line 0 displayBuffer.tabsize).2.2 = (m : Int) := by
      have : (SliceVisualEnd rw i.line 0 displayBuffer.tabsize).2.2 = 0 + (m : Int) := hm2
      omega
    rw [h2, Int.toNat_ofNat, ← hline, h1, List.take_append_drop]
  · obtain ⟨after, hafter⟩ := hdecomp
    rw [hafter]
    apply List.mem_append_left
    apply List.mem_append_right
    simp only [List.mem_map, List.mem_range]
    exact ⟨0, hr, by simp⟩
  · unfold displayBuffer displayBuffer.init
    simp only [loop_swap]
    rfl

/-- Witness for C9 (amended): label `> `, line `abc`, a backward selection from 2 to
0, the rune at position 1. -/
theorem displayBuffer_selection_witness :
    displayBuffer sampleWidth plainConfig
        (swapSelection (selectionWindow "> ".toList "abc".toList 2 0 10)) =
      displayBuffer sampleWidth plainConfig (selectionWindow "> ".toList "abc".toList 2 0 10) :=
  (displayBuffer_selection sampleWidth plainConfig
    (selectionWindow "> ".toList "abc".toList 2 0 10)
    ['a'] 'b' ['c'] 2 0 (by decide) (by decide) (by decide) rfl rfl).2.2.2

/-- C9 (as stated) fails: in the line `⇥b` with the selection [0, 1) the tab at
position 0 is selected, but `draw` writes no cell for it (a tab has width 0) and
its filler cells are drawn at position 1: no cell is written in the selection
style. -/
theorem displayBuffer_selection_counterexample :
    displayBuffer.selected (selectionWindow [] "\tb".toList 0 1 10).cursor 0 = true ∧
    cellWrites (displayBuffer sampleWidth plainConfig
        (selectionWindow [] "\tb".toList 0 1 10)) =
      [(1, 10, ' ', defStyle plainConfig), (2, 10, ' ', defStyle plainConfig),
       (3, 10, ' ', defStyle plainConfig), (4, 10, 'b', defStyle plainConfig)] ∧
    selectionStyle plainConfig ≠ defStyle plainConfig := by
  decide

theorem drawnCells_mem (rw : Char → Nat) (cfg : Config) (i : InfoWindow) (v p : Int)
    (r : Char) (style : Style) (hr : 0 < rw r) :
    Event.SetContent v i.Y r (displayBuffer.drawStyle cfg i.cursor p style) ∈
      drawnCells rw cfg i v p r style := by
  unfold drawnCells
  simp only [List.mem_map, List.mem_range]
  exact ⟨0, hr, by simp⟩

/-- The last call of the filler loop writes the filler glyph `n - 1` columns after
the first. -/
theorem fillerCells_last (rw : Char → Nat) (cfg : Config) (i : InfoWindow) (v p : Int)
    (char : Char) (n : Nat) (hn : 0 < n) (hc : 0 < rw char) :
    ∃ s, Event.SetContent (v + n - 1) i.Y char s ∈ fillerCells rw cfg i v p char n := by
  induction n generalizing v with
  | zero => omega
  | succ n ih =>
    simp only [fillerCells]
    by_cases h0 : n = 0
    · subst h0
      refine ⟨displayBuffer.drawStyle cfg i.cursor p (defStyle cfg), List.mem_append_left _ ?_⟩
      have := drawnCells_mem rw cfg i v p char (defStyle cfg) hc
      simpa using this
    · obtain ⟨s, hs⟩ := ih (v + 1) (by omega)
      refine ⟨s, List.mem_append_right _ ?_⟩
      have he : v + ((n + 1 : Nat) : Int) - 1 = v + 1 + (n : Int) - 1 := by push_cast; omega
      rw [he]
      exact hs

/-- Unless it ends in a tab one cell wide, a fitting line without zero-width runes
has a cell written in its last column, the one before the running column at the
end of the line. -/
theorem displayBuffer_last_cell (rw : Char → Nat) (cfg : Config) (i : InfoWindow)
    (pre : List Char) (r : Char)
    (hnz : ∀ c ∈ i.line, c = '\t' ∨ 0 < rw c)
    (hfit : RuneCountInString i.Msg + lineWidth rw i.line 0 ≤ i.Width)
    (hline : i.line = pre ++ [r])
    (hcell : r ≠ '\t' ∨ 2 ≤ runeCells rw (lineWidth rw pre 0) r)
    (hsp : 0 < rw ' ') (hat : 0 < rw '@') :
    ∃ c s, Event.SetContent (RuneCountInString i.Msg + lineWidth rw i.line 0 - 1) i.Y c s ∈
      displayBuffer rw cfg i := by
  have hfirst : ∀ c ∈ i.line.head?, c = '\t' ∨ 0 < rw c :=
    fun c hc => hnz c (List.mem_of_mem_head? hc)
  have hinit := init_of_slice_id rw i hfirst
  have hc0 := lineWidth_ge rw pre 0
  have hw : lineWidth rw i.line 0 = lineWidth rw pre 0 + runeCells rw (lineWidth rw pre 0) r := by
    rw [hline, lineWidth_append]
    simp only [lineWidth]
  have hr1 := runeCells_pos rw (lineWidth rw pre 0) r (hnz r (by rw [hline]; simp))
  have hpre := loop_fits rw cfg i pre (displayBuffer.init rw i) (by rw [hinit]) (by rw [hinit])
    (fun c hc => hnz c (by rw [hline]; exact List.mem_append_left _ hc))
    (by rw [hinit]; simp only; omega)
  rw [hinit] at hpre
  simp only [sub_zero, zero_add, zero_sub] at hpre
  obtain ⟨after, hafter⟩ := displayBuffer_at rw cfg i pre r [] hline hfirst
    (Or.inl (by rw [hinit, hpre]; simp only; omega))
  rw [hinit, hpre] at hafter
  rw [step_of_nonpos rw cfg i _ r (by simp only; omega) (by simp only; exact hc0)] at hafter
  simp only at hafter
  rw [hafter, hw]
  by_cases h2 : 2 ≤ runeCells rw (lineWidth rw pre 0) r
  · -- the last filler cell
    have hn : 0 < fillCount (runeCells rw (lineWidth rw pre 0) r) := by
      unfold fillCount; split_ifs <;> omega
    have hfc : ((fillCount (runeCells rw (lineWidth rw pre 0) r) : Nat) : Int) =
        runeCells rw (lineWidth rw pre 0) r - 1 := by
      have := fillCount_of_pos _ hr1
      omega
    have hchar : 0 < rw (if r = '\t' then ' ' else '@') := by split_ifs <;> assumption
    obtain ⟨s, hs⟩ := fillerCells_last rw cfg i
      (RuneCountInString i.Msg + lineWidth rw pre 0 + 1) ((pre.length : Int) + 1)
      (if r = '\t' then ' ' else '@') _ hn hchar
    rw [hfc] at hs
    refine ⟨(if r = '\t' then ' ' else '@'), s, ?_⟩
    apply List.mem_append_left
    apply List.mem_append_right
    apply List.mem_append_left
    apply List.mem_append_right
    have he : RuneCountInString i.Msg +
        (lineWidth rw pre 0 + runeCells rw (lineWidth rw pre 0) r) - 1 =
        RuneCountInString i.Msg + lineWidth rw pre 0 + 1 +
          (runeCells rw (lineWidth rw pre 0) r - 1) - 1 := by omega
    rw [he]
    exact hs
  · -- a rune one cell wide: its own cell
    have hnt : r ≠ '\t' := by
      rcases hcell with h | h
      · exact h
      · exact absurd h h2
    have hrw : 0 < rw r := by
      rcases hnz r (by rw [hline]; simp) with h | h
      · exact absurd h hnt
      · exact h
    have h1 : runeCells rw (lineWidth rw pre 0) r = 1 := by omega
    refine ⟨r, displayBuffer.drawStyle cfg i.cursor (pre.length : Int) (defStyle cfg), ?_⟩
    apply List.mem_append_left
    apply List.mem_append_right
    apply List.mem_append_left
    apply List.mem_append_left
    have he : RuneCountInString i.Msg +
        (lineWidth rw pre 0 + runeCells rw (lineWidth rw pre 0) r) - 1 =
        RuneCountInString i.Msg + lineWidth rw pre 0 := by omega
    rw [he]
    exact drawnCells_mem rw cfg i _ _ r (defStyle cfg) hrw

/-- C10 (amended): for a line whose runes other than tabs have a display width of at
least 1, that fits the view, and a cursor at position `k` of the line (`k` =
length for the end of the line), `displayBuffer` calls `ShowCursor` exactly once,
on row `Y`, at the label's rune count plus the visual width of the first `k`
runes; that is the running column after those runes, and, when `k` is a rune of
the line, the column at which its cells are drawn. No cell is written at or beyond
the column of the end of the line, and, unless the line ends in a tab one cell
wide, a cell is written in the column just before it (the filler glyphs having a
width). -/
theorem displayBuffer_cursor (rw : Char → Nat) (cfg : Config) (i : InfoWindow) (k : Nat)
    (hnz : ∀ r ∈ i.line, r = '\t' ∨ 0 < rw r)
    (hfit : RuneCountInString i.Msg + lineWidth rw i.line 0 ≤ i.Width)
    (hk : k ≤ i.line.length) (hcur : i.cursor.X = k) :
    cursorCalls (displayBuffer rw cfg i) =
      [(RuneCountInString i.Msg + lineWidth rw (i.line.take k) 0, i.Y)] ∧
    (displayBuffer.loop rw cfg i (i.line.take k) (displayBuffer.init rw i)).1.vlocX =
      RuneCountInString i.Msg + lineWidth rw (i.line.take k) 0 ∧
    (∀ r post, i.line = i.line.take k ++ r :: post →
      ∃ after, displayBuffer rw cfg i =
        (displayBuffer.loop rw cfg i (i.line.take k) (displayBuffer.init rw i)).2 ++
          drawnCells rw cfg i (RuneCountInString i.Msg + lineWidth rw (i.line.take k) 0) k r
            (defStyle cfg) ++ after) ∧
    colsWithin (displayBuffer rw cfg i) (RuneCountInString i.Msg)
      (RuneCountInString i.Msg + lineWidth rw i.line 0) ∧
    (∀ pre r, i.line = pre ++ [r] →
      (r ≠ '\t' ∨ 2 ≤ runeCells rw (lineWidth rw pre 0) r) → 0 < rw ' ' → 0 < rw '@' →
      ∃ c s, Event.SetContent (RuneCountInString i.Msg + lineWidth rw i.line 0 - 1) i.Y c s ∈
        displayBuffer rw cfg i) := by
  have hfirst : ∀ c ∈ i.line.head?, c = '\t' ∨ 0 < rw c := by
    intro c hc
    exact hnz c (List.mem_of_mem_head? hc)
  have hinit := init_of_slice_id rw i hfirst
  -- the running column after the first `k` runes
  have htake : i.line.take k ++ i.line.drop k = i.line := List.take_append_drop k i.line
  have hwk : lineWidth rw (i.line.take k) 0 ≤ lineWidth rw i.line 0 := by
    conv_rhs => rw [← htake, lineWidth_append]
    exact lineWidth_ge rw _ _
  have hpre := loop_fits rw cfg i (i.line.take k) (displayBuffer.init rw i)
    (by rw [hinit]) (by rw [hinit])
    (fun r hr => hnz r (List.mem_of_mem_take hr))
    (by rw [hinit]; simp only; omega)
  rw [hinit] at hpre
  simp only [sub_zero, zero_add, zero_sub] at hpre
  have hall := loop_fits rw cfg i i.line (displayBuffer.init rw i)
    (by rw [hinit]) (by rw [hinit]) hnz (by rw [hinit]; simp only; omega)
  rw [hinit] at hall
  simp only [sub_zero, zero_add, zero_sub] at hall
  have hcalls := loop_cursorCalls rw cfg i i.line (displayBuffer.init rw i)
    (by rw [hinit]) (by rw [hinit]) hnz (by rw [hinit]; simp only; omega)
  rw [hinit] at hcalls
  simp only [sub_zero, zero_add] at hcalls
  refine ⟨?_, ?_, ?_, displayBuffer_cols_of_fits rw cfg i hnz hfit,
    fun pre r hline hcell hsp hat =>
      displayBuffer_last_cell rw cfg i pre r hnz hfit hline hcell hsp hat⟩
  · unfold displayBuffer
    simp only [slice_id rw i.line hfirst, cursorCalls_append]
    rw [hinit, hcalls, hall, hcur]
    simp only [Int.toNat_ofNat]
    by_cases hlt : k < i.line.length
    · rw [if_pos (by omega), if_neg (by omega)]
      simp [cursorCalls]
    · have hkl : k = i.line.length := by omega
      rw [if_neg (by omega), if_pos (by omega)]
      simp [cursorCalls, hkl]
  · rw [hinit, hpre]
  · intro r post hline
    have hw1 : lineWidth rw i.line 0 =
        lineWidth rw post (lineWidth rw (i.line.take k) 0 +
          runeCells rw (lineWidth rw (i.line.take k) 0) r) := by
      conv_lhs => rw [hline, lineWidth_append]
      simp only [lineWidth]
    have hr1 := runeCells_pos rw (lineWidth rw (i.line.take k) 0) r
      (hnz r (by rw [hline]; simp))
    have hge := lineWidth_ge rw post (lineWidth rw (i.line.take k) 0 +
      runeCells rw (lineWidth rw (i.line.take k) 0) r)
    have hlen : (i.line.take k).length = k := by
      rw [List.length_take]; omega
    obtain ⟨after, hafter⟩ := displayBuffer_at rw cfg i (i.line.take k) r post hline hfirst
      (Or.inl (by rw [hinit, hpre]; simp only; omega))
    rw [hinit, hpre] at hafter
    rw [step_of_nonpos rw cfg i _ r
      (by simp only; have := lineWidth_ge rw (i.line.take k) 0; omega)
      (by simp only; exact lineWidth_ge rw (i.line.take k) 0)] at hafter
    simp only [hlen, List.append_assoc] at hafter
    rw [hinit]
    exact ⟨_, by rw [hafter]; simp only [List.append_assoc]; rfl⟩

/-- Witness for C10 (amended): label `> `, line `a⇥b`, cursor on the rune after the tab. -/
theorem displayBuffer_cursor_witness :
    cursorCalls (displayBuffer sampleWidth plainConfig
        (promptWindow "> ".toList "a\tb".toList 2 10)) =
      [(RuneCountInString "> ".toList + lineWidth sampleWidth ("a\tb".toList.take 2) 0, 10)] :=
  (displayBuffer_cursor sampleWidth plainConfig (promptWindow "> ".toList "a\tb".toList 2 10) 2
    (by decide) (by decide) (by decide) (by decide)).1

/-- C10 (as stated) fails: on the line `U+0001 a` the initial skip removes the
zero-width rune and the loop starts at position 1, so with the cursor at position 0
`ShowCursor` is never called; on the line `abc⇥` the tab is one cell wide and
unwritten, so with the cursor at the end of the line the last drawn cell is at
column 2 and the cursor is shown at column 4, not at column 3. -/
theorem displayBuffer_cursor_counterexample :
    (RuneCountInString [] + lineWidth sampleWidth ['\x01', 'a'] 0 ≤
        (promptWindow [] ['\x01', 'a'] 0 10).Width ∧
      cursorCalls (displayBuffer sampleWidth plainConfig
        (promptWindow [] ['\x01', 'a'] 0 10)) = []) ∧
    (RuneCountInString [] + lineWidth sampleWidth "abc\t".toList 0 ≤
        (promptWindow [] "abc\t".toList 4 10).Width ∧
      cellWrites (displayBuffer sampleWidth plainConfig
        (promptWindow [] "abc\t".toList 4 10)) =
        [(0, 10, 'a', defStyle plainConfig), (1, 10, 'b', defStyle plainConfig),
         (2, 10, 'c', defStyle plainConfig)] ∧
      cursorCalls (displayBuffer sampleWidth plainConfig
        (promptWindow [] "abc\t".toList 4 10)) = [(4, 10)]) := by
  decide

theorem agrees_of_ge (g : Int → Char × Style) (width x : Int) (cs : List (Char × Style))
    (h : width ≤ x) : agrees g width x cs := by
  induction cs generalizing x with
  | nil => trivial
  | cons c rest ih => exact ⟨fun hx => by omega, ih (x + 1) (by omega)⟩

theorem agrees_append (g : Int → Char × Style) (width x : Int) (a b : List (Char × Style)) :
    agrees g width x (a ++ b) ↔ agrees g width x a ∧ agrees g width (x + a.length) b := by
  induction a generalizing x with
  | nil => simp [agrees]
  | cons c rest ih =>
    have he : x + (((c :: rest).length : Nat) : Int) = x + 1 + (rest.length : Int) := by
      simp only [List.length_cons]; push_cast; omega
    rw [he]
    show ((x < width → g x = c) ∧ agrees g width (x + 1) (rest ++ b)) ↔
      ((x < width → g x = c) ∧ agrees g width (x + 1) rest) ∧
        agrees g width (x + 1 + rest.length) b
    rw [ih]
    exact and_assoc.symm

theorem laidOut_append (i : InfoWindow) (y : Int) (g : Int → Char × Style)
    (a b : List Event) (ha : laidOut i y g a) (hb : laidOut i y g b) :
    laidOut i y g (a ++ b) := by
  intro e he
  rcases List.mem_append.1 he with h | h
  · exact ha e h
  · exact hb e h

theorem laidOut_nil (i : InfoWindow) (y : Int) (g : Int → Char × Style) :
    laidOut i y g [] := fun e he => by simp at he

/-- The cell loop of `draw` against a layout: while the running column follows the
layout, each call carries the style of the layout's cell at its column. -/
theorem drawCells_laid (i : InfoWindow) (y : Int) (g : Int → Char × Style) (r : Char)
    (s : Style) (hW : 1 ≤ i.Width) (js : List Nat) (x : Int)
    (hag : agrees g i.Width x (js.map (fun j => (if j > 0 then ' ' else r, s)))) :
    laidOut i y g (Display.drawCells i y false r s js x).2 ∧
      (i.Width ≤ (Display.drawCells i y false r s js x).1 ∨
        (Display.drawCells i y false r s js x).1 = x + js.length) := by
  induction js generalizing x with
  | nil => exact ⟨laidOut_nil _ _ _, Or.inr (by simp [Display.drawCells])⟩
  | cons j js ih =>
    simp only [List.map_cons, agrees] at hag
    obtain ⟨hg, hrest⟩ := hag
    obtain ⟨ih1, ih2⟩ := ih (x + 1) hrest
    have hnext : i.Width ≤ (Display.drawCells i y false r s js (x + 1)).1 ∨
        (Display.drawCells i y false r s js (x + 1)).1 = x + ((j :: js).length : Nat) := by
      rcases ih2 with h | h
      · exact Or.inl h
      · exact Or.inr (by rw [h]; simp only [List.length_cons]; push_cast; omega)
    unfold Display.drawCells
    by_cases h1 : x = i.Width - 1
    · simp only [h1, Bool.not_false, and_true, if_true]
      refine ⟨?_, Or.inl (by omega)⟩
      intro e he
      simp only [List.mem_singleton] at he
      have hgx := hg (by omega)
      rw [h1] at hgx
      exact ⟨i.Width - 1, '>', s, he, by omega, by rw [hgx], by simp⟩
    · simp only [h1, false_and, if_false]
      by_cases h2 : x = 0 ∧ i.hscroll > 0
      · rw [if_pos h2]
        refine ⟨?_, hnext⟩
        intro e he
        rcases List.mem_cons.1 he with h | h
        · have hgx := hg (by omega)
          rw [h2.1] at hgx
          exact ⟨0, '<', s, h, by omega, by rw [hgx], by
            rw [if_neg (by omega), if_pos ⟨rfl, h2.2⟩]⟩
        · exact ih1 e h
      · rw [if_neg h2]
        by_cases h3 : x ≥ 0 ∧ x < i.Width
        · rw [if_pos h3]
          refine ⟨?_, hnext⟩
          intro e he
          rcases List.mem_cons.1 he with h | h
          · have hgx := hg h3.2
            exact ⟨x, _, s, h, h3.2, by rw [hgx], by rw [if_neg h1, if_neg h2, hgx]⟩
          · exact ih1 e h
        · rw [if_neg h3]
          exact ⟨ih1, hnext⟩

theorem draw_laid (rw : Char → Nat) (i : InfoWindow) (y : Int) (g : Int → Char × Style)
    (r : Char) (s : Style) (hW : 1 ≤ i.Width) (x : Int)
    (hag : agrees g i.Width x (runeLayout rw s r)) :
    laidOut i y g (Display.draw rw i y x r s).2 ∧
      (i.Width ≤ (Display.draw rw i y x r s).1 ∨
        (Display.draw rw i y x r s).1 = x + (runeLayout rw s r).length) := by
  have h := drawCells_laid i y g r s hW (List.range (rw r)) x hag
  unfold Display.draw
  refine ⟨h.1, ?_⟩
  rcases h.2 with h2 | h2
  · exact Or.inl h2
  · exact Or.inr (by rw [h2]; simp [runeLayout])

theorem drawRunes_laid (rw : Char → Nat) (i : InfoWindow) (y : Int) (g : Int → Char × Style)
    (s : Style) (hW : 1 ≤ i.Width) (runes : List Char) (x : Int)
    (hag : agrees g i.Width x (runes.flatMap (runeLayout rw s))) :
    laidOut i y g (Display.drawRunes rw i y s runes x).2 ∧
      (i.Width ≤ (Display.drawRunes rw i y s runes x).1 ∨
        (Display.drawRunes rw i y s runes x).1 =
          x + (runes.flatMap (runeLayout rw s)).length) := by
  induction runes generalizing x with
  | nil => exact ⟨laidOut_nil _ _ _, Or.inr (by simp [Display.drawRunes])⟩
  | cons r rest ih =>
    simp only [List.flatMap_cons] at hag ⊢
    rw [agrees_append] at hag
    obtain ⟨hd1, hd2⟩ := draw_laid rw i y g r s hW x hag.1
    unfold Display.drawRunes
    simp only
    rcases hd2 with h | h
    · obtain ⟨ih1, ih2⟩ := ih (Display.draw rw i y x r s).1 (agrees_of_ge _ _ _ _ h)
      refine ⟨laidOut_append _ _ _ _ _ hd1 ih1, Or.inl ?_⟩
      rcases ih2 with h2 | h2
      · exact h2
      · rw [h2]; omega
    · rw [h]
      obtain ⟨ih1, ih2⟩ := ih (x + (runeLayout rw s r).length) hag.2
      refine ⟨laidOut_append _ _ _ _ _ hd1 ih1, ?_⟩
      rcases ih2 with h2 | h2
      · exact Or.inl h2
      · exact Or.inr (by rw [h2, List.length_append]; push_cast; omega)

theorem drawSuggestions_laid (rw : Char → Nat) (i : InfoWindow) (y : Int)
    (g : Int → Char × Style) (base : Style) (hW : 1 ≤ i.Width) (l : List (List Char))
    (j x : Int) (hag : agrees g i.Width x (stripLayout rw i.CurSuggestion base l j)) :
    laidOut i y g (Display.drawSuggestions rw i y base l j x).2 ∧
      (i.Width ≤ (Display.drawSuggestions rw i y base l j x).1 ∨
        (Display.drawSuggestions rw i y base l j x).1 =
          x + (stripLayout rw i.CurSuggestion base l j).length) := by
  induction l generalizing j x with
  | nil => exact ⟨laidOut_nil _ _ _, Or.inr (by simp [Display.drawSuggestions, stripLayout])⟩
  | cons n rest ih =>
    simp only [stripLayout] at hag ⊢
    rw [agrees_append, agrees_append] at hag
    obtain ⟨⟨ha, hb⟩, hc⟩ := hag
    unfold Display.drawSuggestions
    simp only
    obtain ⟨hd1, hd2⟩ := drawRunes_laid rw i y g
      (if i.CurSuggestion = j then base.Reverse true else base) hW n x ha
    -- the blank after the candidate
    have hblank : laidOut i y g (Display.draw rw i y (Display.drawRunes rw i y
          (if i.CurSuggestion = j then base.Reverse true else base) n x).1 ' ' base).2 ∧
        (i.Width ≤ (Display.draw rw i y (Display.drawRunes rw i y
          (if i.CurSuggestion = j then base.Reverse true else base) n x).1 ' ' base).1 ∨
          (Display.draw rw i y (Display.drawRunes rw i y
            (if i.CurSuggestion = j then base.Reverse true else base) n x).1 ' ' base).1 =
            x + (n.flatMap (runeLayout rw
              (if i.CurSuggestion = j then base.Reverse true else base)) ++
              runeLayout rw base ' ').length) := by
      rcases hd2 with h | h
      · obtain ⟨h1, h2⟩ := draw_laid rw i y g ' ' base hW _ (agrees_of_ge _ _ _ _ h)
        refine ⟨h1, Or.inl ?_⟩
        rcases h2 with h3 | h3
        · exact h3
        · rw [h3]; omega
      · rw [h]
        obtain ⟨h1, h2⟩ := draw_laid rw i y g ' ' base hW _ hb
        refine ⟨h1, ?_⟩
        rcases h2 with h3 | h3
        · exact Or.inl h3
        · exact Or.inr (by rw [h3, List.length_append]; push_cast; omega)
    obtain ⟨hb1, hb2⟩ := hblank
    rcases hb2 with h | h
    · obtain ⟨h1, h2⟩ := ih (j + 1) _ (agrees_of_ge _ _ _ _ h)
      refine ⟨laidOut_append _ _ _ _ _ (laidOut_append _ _ _ _ _ hd1 hb1) h1, Or.inl ?_⟩
      rcases h2 with h3 | h3
      · exact h3
      · rw [h3]; omega
    · rw [h]
      obtain ⟨h1, h2⟩ := ih (j + 1) _ hc
      refine ⟨laidOut_append _ _ _ _ _ (laidOut_append _ _ _ _ _ hd1 hb1) h1, ?_⟩
      rcases h2 with h3 | h3
      · exact Or.inl h3
      · exact Or.inr (by rw [h3]; simp only [List.length_append]; push_cast; omega)

theorem agrees_blanks (g : Int → Char × Style) (width x : Int) (base : Style)
    (cs : List (Char × Style)) (hcs : ∀ c ∈ cs, c = (' ', base))
    (hpad : ∀ col, x ≤ col → col < width → g col = (' ', base)) :
    agrees g width x cs := by
  induction cs generalizing x with
  | nil => trivial
  | cons c rest ih =>
    refine ⟨fun hx => ?_, ih (x + 1) (fun c hc => hcs c (List.mem_cons_of_mem _ hc))
      (fun col h1 h2 => hpad col (by omega) h2)⟩
    rw [hcs c (List.mem_cons_self _ _)]
    exact hpad x (le_refl _) hx

theorem runeLayout_blank (rw : Char → Nat) (base : Style) :
    ∀ c ∈ runeLayout rw base ' ', c = (' ', base) := by
  intro c hc
  unfold runeLayout at hc
  simp only [List.mem_map, List.mem_range] at hc
  obtain ⟨j, _, hj⟩ := hc
  rw [← hj]
  split_ifs <;> rfl

/-- The padding loop against a layout that has padding blanks from `x` on. -/
theorem pad_laid (rw : Char → Nat) (i : InfoWindow) (y : Int) (g : Int → Char × Style)
    (base : Style) (hW : 1 ≤ i.Width) (hrw : 0 < rw ' ') (fuel : Nat) (x : Int)
    (hfuel : (i.Width - x).toNat ≤ fuel)
    (hpad : ∀ col, x ≤ col → col < i.Width → g col = (' ', base)) :
    ∃ t, Display.pad rw i y base fuel x = some t ∧ laidOut i y g t := by
  induction fuel generalizing x with
  | zero =>
    have hx : ¬ x < i.Width := by omega
    exact ⟨[], by simp [Display.pad, hx], laidOut_nil _ _ _⟩
  | succ fuel ih =>
    by_cases hx : x < i.Width
    · have hprog := (drawCells_ge i y ' ' base (List.range (rw ' ')) x).2 (by
        intro hnil
        have := congrArg List.length hnil
        simp only [List.length_range, List.length_nil] at this
        omega)
      have hd := draw_laid rw i y g ' ' base hW x
        (agrees_blanks g _ x base _ (runeLayout_blank rw base) hpad)
      have hprog2 : x + 1 ≤ (Display.draw rw i y x ' ' base).1 := hprog
      obtain ⟨t, ht, hst⟩ := ih (Display.draw rw i y x ' ' base).1 (by omega)
        (fun col h1 h2 => hpad col (by omega) h2)
      refine ⟨(Display.draw rw i y x ' ' base).2 ++ t, ?_, laidOut_append _ _ _ _ _ hd.1 hst⟩
      unfold Display.pad
      simp only [hx, if_true, ht]
    · exact ⟨[], by simp [Display.pad, hx], laidOut_nil _ _ _⟩

theorem layout_agrees (layout : List (Char × Style)) (base : Style) (h width : Int)
    (pre suf : List (Char × Style)) (hl : layout = pre ++ suf) :
    agrees (fun col => contentCell layout base (col + h)) width (pre.length - h) suf := by
  induction suf generalizing pre with
  | nil => trivial
  | cons c rest ih =>
    refine ⟨fun _ => ?_, ?_⟩
    · simp only [contentCell, sub_add_cancel, Nat.cast_nonneg, if_true, Int.toNat_ofNat, hl]
      rw [List.getD_eq_getElem?_getD, List.getElem?_append_right (le_refl _)]
      simp
    · have := ih (pre ++ [c]) (by rw [hl]; simp)
      have he : (((pre ++ [c]).length : Nat) : Int) - h = (pre.length : Int) - h + 1 := by
        simp only [List.length_append, List.length_singleton]; push_cast; omega
      rw [he] at this
      exact this

/-- The strip painter against the layout of the strip: in a view of width at least 1
every call at a column `col` carries the style of the content cell at content
position `col + hscroll`, and its rune unless an arrow stands in its place. -/
theorem strip_laid (rw : Char → Nat) (cfg : Config) (i : InfoWindow) (hW : 1 ≤ i.Width)
    (hrw : 0 < rw ' ') :
    ∃ es, Display.strip rw cfg i = some es ∧
      laidOut i (Display.suggestionRow cfg i)
        (fun col => contentCell
          (stripLayout rw i.CurSuggestion (Display.statusLineStyle cfg) i.Suggestions 0)
          (Display.statusLineStyle cfg) (col + i.hscroll)) es := by
  have hag := layout_agrees
    (stripLayout rw i.CurSuggestion (Display.statusLineStyle cfg) i.Suggestions 0)
    (Display.statusLineStyle cfg) i.hscroll i.Width [] _ rfl
  simp only [List.length_nil, Nat.cast_zero, zero_sub] at hag
  obtain ⟨hd1, hd2⟩ := drawSuggestions_laid rw i (Display.suggestionRow cfg i) _
    (Display.statusLineStyle cfg) hW i.Suggestions 0 (-i.hscroll) hag
  obtain ⟨t, ht, hst⟩ := pad_laid rw i (Display.suggestionRow cfg i)
    (fun col => contentCell
      (stripLayout rw i.CurSuggestion (Display.statusLineStyle cfg) i.Suggestions 0)
      (Display.statusLineStyle cfg) (col + i.hscroll))
    (Display.statusLineStyle cfg) hW hrw
    (i.Width - (Display.drawSuggestions rw i (Display.suggestionRow cfg i)
      (Display.statusLineStyle cfg) i.Suggestions 0 (-i.hscroll)).1).toNat
    (Display.drawSuggestions rw i (Display.suggestionRow cfg i)
      (Display.statusLineStyle cfg) i.Suggestions 0 (-i.hscroll)).1 (le_refl _)
    (by
      intro col h1 h2
      rcases hd2 with h | h
      · omega
      · rw [h] at h1
        simp only [contentCell]
        rw [if_pos (by omega)]
        apply List.getD_eq_default
        omega)
  refine ⟨(Display.drawSuggestions rw i (Display.suggestionRow cfg i)
      (Display.statusLineStyle cfg) i.Suggestions 0 (-i.hscroll)).2 ++ t,
    by unfold Display.strip; simp only [ht], laidOut_append _ _ _ _ _ hd1 hst⟩

/-- C15 (amended): every cell the strip painter writes, the `<` and `>` arrows
included, carries the status-line style or that style with reverse-video set; in
a view of width at least 1 the cell written at column `col` carries exactly the
style of the content cell that the layout of the strip has at content position
`col + hscroll` (the style of the current candidate for its runes, the
status-line style elsewhere), and differs from that cell at most by holding an
arrow in place of its rune: an arrow takes the style of the cell it replaces. When
the status-line style itself has reverse-video set, as it has without a theme
entry, every cell carries the status-line style. -/
theorem strip_styles (rw : Char → Nat) (cfg : Config) (i : InfoWindow) (hrw : 0 < rw ' ') :
    ∃ es, Display.strip rw cfg i = some es ∧
      (∀ x y c s, Event.SetContent x y c s ∈ es →
        s = Display.statusLineStyle cfg ∨ s = (Display.statusLineStyle cfg).Reverse true) ∧
      ((Display.statusLineStyle cfg).reverse = true →
        ∀ x y c s, Event.SetContent x y c s ∈ es → s = Display.statusLineStyle cfg) ∧
      (cfg.Colorscheme "statusline" = none →
        ∀ x y c s, Event.SetContent x y c s ∈ es → s = Display.statusLineStyle cfg) ∧
      (1 ≤ i.Width → ∀ x y c s, Event.SetContent x y c s ∈ es →
        s = (contentCell
            (stripLayout rw i.CurSuggestion (Display.statusLineStyle cfg) i.Suggestions 0)
            (Display.statusLineStyle cfg) (x + i.hscroll)).2 ∧
        c = (if x = i.Width - 1 then '>' else if x = 0 ∧ i.hscroll > 0 then '<'
          else (contentCell
            (stripLayout rw i.CurSuggestion (Display.statusLineStyle cfg) i.Suggestions 0)
            (Display.statusLineStyle cfg) (x + i.hscroll)).1)) := by
  obtain ⟨es, hes, hst⟩ := strip_some rw cfg i hrw
  have h1 : ∀ x y c s, Event.SetContent x y c s ∈ es →
      s = Display.statusLineStyle cfg ∨ s = (Display.statusLineStyle cfg).Reverse true := by
    intro x y c s hm
    obtain ⟨col, c1, s1, he, hs⟩ := hst _ hm
    injection he with _ _ _ hss
    rw [hss]
    exact hs
  have h2 : (Display.statusLineStyle cfg).reverse = true →
      ∀ x y c s, Event.SetContent x y c s ∈ es → s = Display.statusLineStyle cfg := by
    intro hr x y c s hm
    rcases h1 x y c s hm with h | h
    · exact h
    · rw [h, Reverse_of_reverse _ hr]
  refine ⟨es, hes, h1, h2, ?_, ?_⟩
  · intro hnone
    apply h2
    unfold Display.statusLineStyle
    rw [hnone]
    rfl
  · intro hW x y c s hm
    obtain ⟨es2, hes2, hlaid⟩ := strip_laid rw cfg i hW hrw
    rw [hes] at hes2
    simp only [Option.some.injEq] at hes2
    subst hes2
    obtain ⟨col, c1, s1, he, _, hs1, hc1⟩ := hlaid _ hm
    injection he with hx _ hc hs
    subst hx hc hs
    exact ⟨hs1, hc1⟩

/-- Witness for C15 (amended): the list `abcdefgh x` in a view of width 5. -/
theorem strip_styles_witness :
    ∃ es, Display.strip sampleWidth statuslineThemeConfig
        (suggWindow ["abcdefgh".toList, "x".toList] 0 5 4) = some es ∧
      ∀ x y c s, Event.SetContent x y c s ∈ es →
        s = Display.statusLineStyle statuslineThemeConfig ∨
          s = (Display.statusLineStyle statuslineThemeConfig).Reverse true :=
  match strip_styles sampleWidth statuslineThemeConfig
      (suggWindow ["abcdefgh".toList, "x".toList] 0 5 4) (by decide) with
  | ⟨es, h1, h2, _⟩ => ⟨es, h1, h2⟩

/-- C15 (as stated) fails: under a theme whose "statusline" style has no
reverse-video, the list `abcdefgh x` with candidate 0 current in a view of width 5
is scrolled to offset 4, and the `<` arrow at column 0 replaces the rune `e` of the
current candidate and carries its style, not the status-line style. -/
theorem strip_styles_counterexample :
    (Display sampleWidth statuslineThemeConfig
        (suggWindow ["abcdefgh".toList, "x".toList] 0 5 0)).map
        (fun r => (r.1.hscroll, cellWrites r.2)) =
      some (4,
        [(0, 9, '<', (Display.statusLineStyle statuslineThemeConfig).Reverse true),
         (1, 9, 'f', (Display.statusLineStyle statuslineThemeConfig).Reverse true),
         (2, 9, 'g', (Display.statusLineStyle statuslineThemeConfig).Reverse true),
         (3, 9, 'h', (Display.statusLineStyle statuslineThemeConfig).Reverse true),
         (4, 9, '>', Display.statusLineStyle statuslineThemeConfig)]) ∧
    (Display.statusLineStyle statuslineThemeConfig).Reverse true ≠
      Display.statusLineStyle statuslineThemeConfig := by
  decide

/-- In a frame that paints the strip in a view of width at least 2 (from a
non-negative offset, no candidate containing the rune `<` itself), column 0 of
the suggestion row is written, and it holds `<` if and only if the offset after
the scroll adjustment is positive. -/
theorem left_arrow_when_painted (rw : Char → Nat) (cfg : Config) (i : InfoWindow)
    (hrw : 0 < rw ' ') (hW : 2 ≤ i.Width) (hs : i.HasSuggestions = true)
    (hlen : 2 ≤ i.Suggestions.length)
    (hshown : i.HasPrompt = true ∨ i.HasMessage = true ∨ i.HasError = true ∨
      cfg.infobar = false)
    (h0 : 0 ≤ i.hscroll) (hlt : ∀ n ∈ i.Suggestions, ∀ r ∈ n, r ≠ '<') :
    ∃ i1 es, Display rw cfg i = some (i1, es) ∧
      i1.hscroll = (scrollToSuggestion rw i).hscroll ∧
      (∃ c s, cellAt es 0 (Display.suggestionRow cfg i) = some (c, s)) ∧
      ((∃ s, cellAt es 0 (Display.suggestionRow cfg i) = some ('<', s)) ↔ 0 < i1.hscroll) := by
  have hm : (Display.message rw cfg i).2 = false := by
    rw [message_returns]
    rcases hshown with h | h | h | h <;> simp [h]
  obtain ⟨i1, es, hd, hsug⟩ := Display_some rw cfg i hrw hm
  obtain ⟨hS, _, hWeq, _, _⟩ := scrollToSuggestion_fields rw i
  have hnn := scroll_hscroll_nonneg rw i h0
  obtain ⟨ss, x1, hss, ⟨_, hcells, hcover⟩, hx1⟩ := strip_spec rw cfg (scrollToSuggestion rw i)
    (fun c => c ≠ '<') (fun _ => True) (by rw [hWeq]; omega) hrw (by decide)
    (by rw [hS]; exact hlt) trivial trivial
  have hrow : Display.suggestionRow cfg (scrollToSuggestion rw i) =
      Display.suggestionRow cfg i := rfl
  rw [hrow] at hcells hcover
  rw [hWeq] at hx1 hcover
  -- the frame's suggestion part is the scroll adjustment followed by the strip
  rw [suggestions_eq_strip, hs, hss] at hsug
  have hcond : decide (i.Suggestions.length > 1) = true := by
    simp only [decide_eq_true_eq]; omega
  simp only [hcond, Bool.and_self, if_true, Option.map_some', Option.some.injEq,
    Prod.mk.injEq] at hsug
  obtain ⟨hi1, hes⟩ := hsug
  subst hi1 hes
  -- column 0 is written by the strip, and the last call there decides the cell
  obtain ⟨c0, s0, hmem0⟩ := hcover 0 (by omega) (by omega) (le_refl _) (by omega)
  obtain ⟨c1, s1, hcell⟩ := cellAt_of_mem ss 0 _ c0 s0 hmem0
  have hfull : cellAt ((Display.message rw cfg i).1 ++ ss) 0 (Display.suggestionRow cfg i) =
      some (c1, s1) := by
    rw [cellAt_append, hcell]
  obtain ⟨col, c2, s2, he, _, _, _, _, _, hchar⟩ := hcells _ (cellAt_mem ss 0 _ c1 s1 hcell)
  injection he with hcol _ hc2 _
  subst hcol hc2
  rw [hWeq, if_neg (by omega)] at hchar
  refine ⟨_, _, hd, rfl, ⟨c1, s1, hfull⟩, ?_⟩
  rw [hfull]
  constructor
  · rintro ⟨s, hs1⟩
    simp only [Option.some.injEq, Prod.mk.injEq] at hs1
    by_contra hneg
    rw [if_neg (by intro h; exact hneg h.2)] at hchar
    exact hchar hs1.1
  · intro hpos
    rw [if_pos ⟨rfl, hpos⟩] at hchar
    exact ⟨s1, by rw [hchar]⟩

/-- C16 (the code at a failing input): with "infobar" on and neither prompt, message
nor error active, `Display` returns before the suggestion block: for the active
list `abc de fghij` with candidate 2 current in a view of width 10 and the offset
3 (the offset the scroll adjustment keeps for this list) the offset stays positive
but column 0 of the suggestion row is not written at all; with "infobar" off the
same frame puts `<` there. -/
theorem Display_infobar_left_arrow :
    (suggWindow ["abc".toList, "de".toList, "fghij".toList] 2 10 3).HasSuggestions = true ∧
    (suggWindow ["abc".toList, "de".toList, "fghij".toList] 2 10 3).Suggestions.length = 3 ∧
    2 ≤ (suggWindow ["abc".toList, "de".toList, "fghij".toList] 2 10 3).Width ∧
    (scrollToSuggestion sampleWidth
      (suggWindow ["abc".toList, "de".toList, "fghij".toList] 2 10 3)).hscroll = 3 ∧
    (Display sampleWidth infobarConfig
        (suggWindow ["abc".toList, "de".toList, "fghij".toList] 2 10 3)).map
        (fun r => (r.1.hscroll, cellAt r.2 0 (Display.suggestionRow infobarConfig
          (suggWindow ["abc".toList, "de".toList, "fghij".toList] 2 10 3)))) =
      some (3, none) ∧
    (Display sampleWidth plainConfig
        (suggWindow ["abc".toList, "de".toList, "fghij".toList] 2 10 3)).map
        (fun r => (r.1.hscroll, cellAt r.2 0 (Display.suggestionRow plainConfig
          (suggWindow ["abc".toList, "de".toList, "fghij".toList] 2 10 3)))) =
      some (3, some ('<', Display.statusLineStyle plainConfig)) := by
  decide

end Micro
